import Mathlib

/-!
Verification of the online-statistics and spatial-tiling core of the
TmLibrary repository.

Embedded sources:
* `src/tmlib/workflow/corilla/stats.py` — class `OnlineStatistics`
  (Welford mean/variance plus running percentile sums over a stream of
  equally shaped images).
* `src/tmlib/models/mapobject.py` — `MapobjectOutline.intersection_filter`
  (tile bounding box and top/left border-exclusion predicates) and
  `MapobjectType.calculate_min_poly_zoom` (sampled zoom-threshold
  estimator).

Modelling conventions:
* numpy float arrays are embedded as flat lists of rationals together
  with an explicit shape (`NDArray`); arithmetic is exact.
* numpy broadcasting (`a - b` for differently shaped operands) is
  embedded faithfully: shapes are aligned from the trailing dimension,
  a dimension of size one is stretched, incompatible shapes are an
  error (numpy raises `ValueError`).
* `np.log10` is an external real function; it is passed to `update` as
  an explicit function parameter `log10 : ℚ → ℚ`.
* NaN produced by `var` when `n < 2` is modelled by `Option ℚ` with
  `none` for NaN.
* Python exceptions are modelled with `Except`; for `update` the error
  value also carries the object state at the moment the exception is
  raised, because the Python object keeps all mutations made before
  the raising statement.
* PostGIS geometries are modelled as rational point sets of the shapes
  actually occurring in the code: closed axis-aligned rectangles (the
  tile `POLYGON`) and axis-aligned segments (the border `LINESTRING`s,
  and outlines that lie exactly on a tile border).
-/

/-- Product of a numpy shape (number of elements of an array). -/
def shapeProd (s : List ℕ) : ℕ := s.foldr (· * ·) 1

/-- A numpy `ndarray` with rational entries: an explicit shape together
with the row-major flattened data. -/
structure NDArray where
  shape : List ℕ
  data : List ℚ
deriving DecidableEq, Repr

/-- Broadcast two numpy shapes, both given reversed (trailing dimension
first): dimensions are compared pairwise, a missing or size-one
dimension is stretched, anything else is incompatible (`none`). -/
def bcastRev : List ℕ → List ℕ → Option (List ℕ)
  | [], t => some t
  | s, [] => some s
  | a :: s, b :: t =>
    (bcastRev s t).bind fun r =>
      if a = b then some (a :: r)
      else if a = 1 then some (b :: r)
      else if b = 1 then some (a :: r)
      else none

/-- numpy broadcast of two shapes (`none` = `ValueError: operands could
not be broadcast together`). -/
def broadcastShape (s t : List ℕ) : Option (List ℕ) :=
  (bcastRev s.reverse t.reverse).map List.reverse

/-- Row-major multi-index of the flat index `k` in shape `s`. -/
def unflatten : List ℕ → ℕ → List ℕ
  | [], _ => []
  | _ :: rest, k => (k / shapeProd rest) :: unflatten rest (k % shapeProd rest)

/-- Row-major flat index of a multi-index in shape `s`. -/
def flattenIdx : List ℕ → List ℕ → ℕ
  | [], _ => 0
  | _ :: _, [] => 0
  | _ :: rest, i :: is => i * shapeProd rest + flattenIdx rest is

/-- Broadcast index clamping: a coordinate along a stretched (size-one)
dimension always reads position 0 of the operand. -/
def clampIdx (s idx : List ℕ) : List ℕ :=
  List.zipWith (fun d i => if d = 1 then 0 else i) s idx

/-- Flat position in an operand of shape `s` read by the broadcast
result position `idx` (trailing-aligned, stretched dims clamped). -/
def srcFlat (s idx : List ℕ) : ℕ :=
  flattenIdx s (clampIdx s (idx.drop (idx.length - s.length)))

/-- Element of `a` read by broadcast result position `idx`. -/
def bget (a : NDArray) (idx : List ℕ) : ℚ :=
  a.data.getD (srcFlat a.shape idx) 0

/-- Elementwise binary numpy operation with broadcasting; `none` models
numpy raising `ValueError` on incompatible shapes. -/
def ewise (f : ℚ → ℚ → ℚ) (a b : NDArray) : Option NDArray :=
  (broadcastShape a.shape b.shape).map fun r =>
    ⟨r, (List.range (shapeProd r)).map fun k =>
          f (bget a (unflatten r k)) (bget b (unflatten r k))⟩

/-- Elementwise unary numpy operation (array-scalar ops, `np.log10`). -/
def scalarMap (f : ℚ → ℚ) (a : NDArray) : NDArray :=
  ⟨a.shape, a.data.map f⟩

/-- Model of `np.zeros(shape)`. -/
def zerosArr (shape : List ℕ) : NDArray :=
  ⟨shape, List.replicate (shapeProd shape) 0⟩

/-- Model of `np.linspace(a, b, num)`: `num` evenly spaced rationals from `a` to
`b` inclusive. -/
def linspace (a b : ℚ) (num : ℕ) : List ℚ :=
  (List.range num).map fun i : ℕ => a + (b - a) * (i : ℚ) / ((num : ℚ) - 1)

/-- Model of `np.percentile(data, q)` with the default linear interpolation:
sort the flattened data, locate the fractional rank `q/100 * (n-1)` and
interpolate between the two neighbouring order statistics (the upper
index is clamped to `n-1`). -/
def npPercentile (data : List ℚ) (q : ℚ) : ℚ :=
  let s := data.mergeSort fun a b => decide (a ≤ b)
  let n := s.length
  let idx : ℚ := q / 100 * ((n : ℚ) - 1)
  let below : ℕ := (⌊idx⌋).toNat
  let above : ℕ := min (below + 1) (n - 1)
  let weight : ℚ := idx - (⌊idx⌋ : ℚ)
  s.getD below 0 * (1 - weight) + s.getD above 0 * weight

/-- Python `int()` applied to a float: truncation toward zero. -/
def pyInt (x : ℚ) : ℤ := if 0 ≤ x then ⌊x⌋ else ⌈x⌉

/-- Python 2 `round(x, d)`: round half away from zero at `d` decimals. -/
def pyRound (x : ℚ) (d : ℕ) : ℚ :=
  (if 0 ≤ x then (⌊x * 10 ^ d + 1 / 2⌋ : ℚ) else -(⌊-x * 10 ^ d + 1 / 2⌋ : ℚ)) / 10 ^ d

/-- State of `corilla.stats.OnlineStatistics`.  Python attribute names:
`n`, `image_dimensions`, `_mean` ↦ `mean`, `_M2` ↦ `M2`, `_q` ↦ `q`,
`_percentiles` (the running percentile sums) ↦ `percentileSums`,
`_keys` ↦ `keys`. -/
structure OnlineStatistics where
  n : ℕ
  image_dimensions : List ℕ
  mean : NDArray
  M2 : NDArray
  q : List ℚ
  percentileSums : List ℚ
  keys : List ℚ

/-- Model of `OnlineStatistics.__init__(image_dimensions, decimals)`.
`emptyBuf` models the unspecified contents of `np.empty((precision,))`
with which the running percentile sums are (not) initialised — the
source does not zero this buffer. -/
def OnlineStatistics.init (image_dimensions : List ℕ) (decimals : ℤ)
    (emptyBuf : ℕ → ℚ) : Except String OnlineStatistics :=
  if ¬(0 ≤ decimals ∧ decimals ≤ 3) then
    Except.error "Argument decimals must lie in range [0, 3]."
  else
    let precision : ℕ := 10 ^ (decimals.toNat + 2)
    let qs := linspace 0 100 precision
    Except.ok
      { n := 0
        image_dimensions := image_dimensions
        mean := zerosArr image_dimensions
        M2 := zerosArr image_dimensions
        q := qs
        percentileSums := (List.range precision).map emptyBuf
        keys := qs.map fun x => pyRound x decimals.toNat }

/-- Model of `OnlineStatistics.update(image, log_transform)`.  Statement order is
exactly the source order: (1) add the raw-pixel percentiles into the
running sums, (2) convert to float and optionally `log10`-transform,
(3) increment `n`, (4) Welford: `delta_mean = array - mean`,
`mean = mean + delta_mean / n`, `M2 = M2 + delta_mean * (array - mean)`
with the already-updated `mean`.  A broadcast failure raises after the
mutations already made; the error carries the state at raise time. -/
def OnlineStatistics.update (stats : OnlineStatistics) (image : NDArray)
    (log10 : ℚ → ℚ) (log_transform : Bool := true) :
    Except (String × OnlineStatistics) OnlineStatistics :=
  let newSums :=
    List.zipWith (· + ·) stats.percentileSums (stats.q.map (npPercentile image.data))
  let array : NDArray := if log_transform then scalarMap log10 image else image
  let stats1 := { stats with percentileSums := newSums, n := stats.n + 1 }
  match ewise (· - ·) array stats1.mean with
  | none => Except.error ("operands could not be broadcast together", stats1)
  | some delta_mean =>
    match ewise (· + ·) stats1.mean (scalarMap (· / (stats1.n : ℚ)) delta_mean) with
    | none => Except.error ("operands could not be broadcast together", stats1)
    | some newMean =>
      let stats2 := { stats1 with mean := newMean }
      match ewise (· - ·) array stats2.mean with
      | none => Except.error ("operands could not be broadcast together", stats2)
      | some diff2 =>
        match ewise (· * ·) delta_mean diff2 with
        | none => Except.error ("operands could not be broadcast together", stats2)
        | some prod =>
          match ewise (· + ·) stats2.M2 prod with
          | none => Except.error ("operands could not be broadcast together", stats2)
          | some newM2 => Except.ok { stats2 with M2 := newM2 }

/-- Model of the `OnlineStatistics.var` property: a NaN-filled array of the configured
image dimensions when `n < 2`, else `M2 / (n - 1)`; `none` models NaN. -/
def OnlineStatistics.var (stats : OnlineStatistics) : List (Option ℚ) :=
  if stats.n < 2 then
    List.replicate (shapeProd stats.image_dimensions) none
  else
    stats.M2.data.map fun x => some (x / ((stats.n : ℚ) - 1))

/-- Model of the `OnlineStatistics.percentiles` property: each rounded probability key
paired with `int(sum / n)` (Python `dict` comprehension, here kept as the
list of pairs in grid order). -/
def OnlineStatistics.percentiles (stats : OnlineStatistics) : List (ℚ × ℤ) :=
  List.zipWith (fun k x => (k, pyInt (x / (stats.n : ℚ)))) stats.keys stats.percentileSums

/-- Feed a list of images to `update` one at a time, propagating any
exception.  All runs in this development use an explicit
`log_transform` flag as the source call sites do. -/
def updateAll (log10 : ℚ → ℚ) (log_transform : Bool) :
    OnlineStatistics → List NDArray → Except (String × OnlineStatistics) OnlineStatistics
  | st, [] => Except.ok st
  | st, img :: rest =>
    match st.update img log10 log_transform with
    | Except.ok st' => updateAll log10 log_transform st' rest
    | Except.error e => Except.error e

/-- One scalar Welford step at sample count `n` (the source lines
`delta_mean = array - mean; mean += delta_mean / n;
M2 += delta_mean * (array - mean)` at a fixed pixel position). -/
def welfordStepQ (x : ℚ) (n : ℕ) (m m2 : ℚ) : ℚ × ℚ :=
  let delta := x - m
  let m' := m + delta / (n : ℚ)
  (m', m2 + delta * (x - m'))

/-- Scalar Welford recursion over a list of samples, starting from
sample count `n` and state `(m, m2)`. -/
def welfordFoldQ : List ℚ → ℕ → ℚ × ℚ → ℚ × ℚ
  | [], _, s => s
  | x :: xs, n, (m, m2) => welfordFoldQ xs (n + 1) (welfordStepQ x (n + 1) m m2)

/-- Modelled from the spec: the elementwise arithmetic mean of a
sequence of same-shaped arrays, at flat position `j`. -/
def arithMeanAt (imgs : List NDArray) (j : ℕ) : ℚ :=
  (imgs.map fun im => im.data.getD j 0).sum / (imgs.length : ℚ)

/-- Modelled from the spec: the elementwise Bessel-corrected two-pass
sample variance of a sequence of same-shaped arrays, at flat position
`j`. -/
def sampleVarAt (imgs : List NDArray) (j : ℕ) : ℚ :=
  (imgs.map fun im => (im.data.getD j 0 - arithMeanAt imgs j) ^ 2).sum /
    ((imgs.length : ℚ) - 1)

/-- Modelled from the spec: `round(percentileSum[i] / count)` "as an
integer" — Python 2 `round`, half away from zero. -/
def specRoundedPercentile (sum : ℚ) (count : ℕ) : ℤ :=
  if 0 ≤ sum / (count : ℚ) then ⌊sum / (count : ℚ) + 1 / 2⌋ else ⌈sum / (count : ℚ) - 1 / 2⌉

/-- A closed axis-aligned rectangle in map coordinates — the point set
of the tile `POLYGON((maxx maxy, minx maxy, minx miny, maxx miny,
maxx maxy))` built by `intersection_filter`. -/
structure Rect where
  minx : ℚ
  maxx : ℚ
  miny : ℚ
  maxy : ℚ
deriving DecidableEq, Repr

/-- An axis-aligned segment — the point set of the border `LINESTRING`s
built by `intersection_filter`, and of any outline polygon that lies
exactly on a tile border (the degenerate polygons claim C2 is about).
`vert x lo hi` is the segment from `(x, lo)` to `(x, hi)`;
`horiz y lo hi` from `(lo, y)` to `(hi, y)`; `lo ≤ hi` is assumed. -/
inductive Seg where
  | vert (x lo hi : ℚ)
  | horiz (y lo hi : ℚ)
deriving DecidableEq, Repr

/-- Model of `ST_Intersects` between an axis-aligned segment and a closed
rectangle: their point sets meet iff the fixed coordinate lies in the
rectangle range and the coordinate intervals overlap. -/
def segIntersectsRect : Seg → Rect → Bool
  | Seg.vert x lo hi, r =>
    decide (r.minx ≤ x) && decide (x ≤ r.maxx) &&
      decide (lo ≤ r.maxy) && decide (r.miny ≤ hi)
  | Seg.horiz y lo hi, r =>
    decide (r.miny ≤ y) && decide (y ≤ r.maxy) &&
      decide (lo ≤ r.maxx) && decide (r.minx ≤ hi)

/-- Model of `ST_Intersects` between two axis-aligned segments: parallel segments
meet iff they share the fixed coordinate and their intervals overlap;
perpendicular segments meet iff the crossing point lies on both. -/
def segIntersectsSeg : Seg → Seg → Bool
  | Seg.vert x1 lo1 hi1, Seg.vert x2 lo2 hi2 =>
    decide (x1 = x2) && decide (lo1 ≤ hi2) && decide (lo2 ≤ hi1)
  | Seg.horiz y1 lo1 hi1, Seg.horiz y2 lo2 hi2 =>
    decide (y1 = y2) && decide (lo1 ≤ hi2) && decide (lo2 ≤ hi1)
  | Seg.vert x1 lo1 hi1, Seg.horiz y2 lo2 hi2 =>
    decide (lo2 ≤ x1) && decide (x1 ≤ hi2) && decide (lo1 ≤ y2) && decide (y2 ≤ hi1)
  | Seg.horiz y1 lo1 hi1, Seg.vert x2 lo2 hi2 =>
    decide (lo1 ≤ x2) && decide (x2 ≤ hi1) && decide (lo2 ≤ y1) && decide (y1 ≤ hi2)

/-- The tile extent used by `intersection_filter`:
`size = 256 * 2 ** (max_zoom - z)` with the hardcoded `max_zoom = 6`
(source comment: `TODO: max_zoom should be taken from the layer`).
Python `2 ** (6 - z)` is a fraction when `z > 6`, hence the value in ℚ. -/
def tileSize (z : ℕ) : ℚ := 256 * 2 ^ ((6 : ℤ) - (z : ℤ))

/-- The tile bounding rectangle of `intersection_filter`:
`x0 = x * size; y0 = y * size; minx = x0; maxx = x0 + size;
miny = -y0 - size; maxy = -y0`. -/
def tileRect (x y z : ℕ) : Rect :=
  let size := tileSize z
  let x0 := (x : ℚ) * size
  let y0 := (y : ℚ) * size
  { minx := x0, maxx := x0 + size, miny := -y0 - size, maxy := -y0 }

/-- The border `top_border = LINESTRING(minx miny, maxx miny)` of the tile. -/
def topBorder (x y z : ℕ) : Seg :=
  let r := tileRect x y z
  Seg.horiz r.miny r.minx r.maxx

/-- The border `left_border = LINESTRING(minx maxy, minx miny)` of the tile. -/
def leftBorder (x y z : ℕ) : Seg :=
  let r := tileRect x y z
  Seg.vert r.minx r.miny r.maxy

/-- Model of `MapobjectOutline.intersection_filter(x, y, z)` applied to an
outline polygon `g`: the polygon must intersect the tile rectangle,
and — under the grid-boundary guards `x != 0` resp. `y != 0` — must not
intersect the left resp. top border segment. -/
def intersection_filter (x y z : ℕ) (g : Seg) : Bool :=
  segIntersectsRect g (tileRect x y z) &&
    (if x ≠ 0 then !(segIntersectsSeg g (leftBorder x y z)) else true) &&
    (if y ≠ 0 then !(segIntersectsSeg g (topBorder x y z)) else true)

/-- An outline row as seen by `get_mapobject_outlines_within_tile`:
its time point, z-plane and polygon geometry. -/
structure OutlineRow where
  tpoint : ℤ
  zplane : ℤ
  geom_poly : Seg
deriving DecidableEq

/-- The row filter of `get_mapobject_outlines_within_tile` for a
mapobject type with staticness `is_static`:
`(is_static OR (tpoint == tpoint AND zplane == zplane)) AND
intersection_filter(x, y, z)` (the type-id join is left implicit: the
rows given are the rows of the queried type). -/
def outlineSelected (is_static : Bool) (x y z : ℕ) (tpoint zplane : ℤ)
    (row : OutlineRow) : Bool :=
  (is_static || (decide (row.tpoint = tpoint) && decide (row.zplane = zplane))) &&
    intersection_filter x y z row.geom_poly

/-- Modelled from the spec (section 4.2): the tile-extent formula
`size = baseTileSize * 2^(maxZoom - zoomLevel)` with `baseTileSize =
256` and `maxZoom` the configured maximum zoom level of the pyramid. -/
def specTileSize (maxZoom z : ℕ) : ℚ := 256 * 2 ^ ((maxZoom : ℤ) - (z : ℤ))

/-- The sampled tile extent of `calculate_min_poly_zoom`, line
`tilesize = 256 * 2 ** (6 - z)` — the hardcoded `6` again, not the
`maxzoom_level` argument. -/
def estimatorTilesize (z : ℕ) : ℚ := 256 * 2 ^ ((6 : ℤ) - (z : ℤ))

/-- The open `LINESTRING` form of a sampled tile boundary built by
`calculate_min_poly_zoom` from a drawn `(x, y)` address:
`x0 = x * tilesize; y0 = -y * tilesize; minx = x0; maxx = x0 + tilesize;
miny = y0 - tilesize; maxy = y0;
LINESTRING(maxx maxy, minx maxy, minx miny, maxx miny, maxx maxy)`. -/
def estimatorTileBoundary (tilesize : ℚ) (x y : ℕ) : List (ℚ × ℚ) :=
  let x0 := (x : ℚ) * tilesize
  let y0 := -(y : ℚ) * tilesize
  let minx := x0
  let maxx := x0 + tilesize
  let miny := y0 - tilesize
  let maxy := y0
  [(maxx, maxy), (minx, maxy), (minx, miny), (maxx, miny), (maxx, maxy)]

/-- One zoom level of `calculate_min_poly_zoom`: query every drawn tile
(`query` models the `func.sum(ST_NPoints)` database scalar, `none` for
SQL `NULL` when no outline intersects), keep the non-null results, and
average them with `int(float(sum(...)) / len(...))`.  An all-null level
makes `len(...)` zero: the source raises `ZeroDivisionError`, modelled
as `none`. -/
def levelAverage (draws : ℕ → List (ℕ × ℕ)) (query : List (ℚ × ℚ) → Option ℕ)
    (z : ℕ) : Option ℕ :=
  let tilesize := estimatorTilesize z
  let samples := (draws z).filterMap fun p =>
    query (estimatorTileBoundary tilesize p.1 p.2)
  if samples.isEmpty then none else some (samples.sum / samples.length)

/-- The per-level loop `for z in range(maxzoom_level, -1, -1)` of
`calculate_min_poly_zoom`: collect `(z, average)` pairs, aborting with
`ZeroDivisionError` at the first level whose sample list is empty. -/
def collectAverages (draws : ℕ → List (ℕ × ℕ)) (query : List (ℚ × ℚ) → Option ℕ) :
    List ℕ → Except String (List (ℕ × ℕ))
  | [] => Except.ok []
  | z :: rest =>
    match levelAverage draws query z with
    | none => Except.error "ZeroDivisionError: float division by zero"
    | some a =>
      match collectAverages draws query rest with
      | Except.ok l => Except.ok ((z, a) :: l)
      | Except.error e => Except.error e

/-- Model of `MapobjectType.calculate_min_poly_zoom(maxzoom_level, ...)`.  The
random tile draws are an explicit input `draws` (ten `(x, y)` pairs per
level in the source); the database is the explicit input `query`.
After collecting the per-level truncated averages the source returns
`min([z for z, n in ... if n <= n_points_per_tile_limit])`, which
raises `ValueError` on an empty list. -/
def calculate_min_poly_zoom (maxzoom_level : ℕ) (draws : ℕ → List (ℕ × ℕ))
    (query : List (ℚ × ℚ) → Option ℕ) (n_points_per_tile_limit : ℕ) :
    Except String ℕ :=
  match collectAverages draws query (List.range (maxzoom_level + 1)).reverse with
  | Except.error e => Except.error e
  | Except.ok avgs =>
    match ((avgs.filter fun p => p.2 ≤ n_points_per_tile_limit).map Prod.fst).min? with
    | none => Except.error "ValueError: min() arg is an empty sequence"
    | some z => Except.ok z

/-- The state produced by a successful `OnlineStatistics.__init__`
(used to phrase closed statements about concrete runs; a dummy state is
returned for an invalid `decimals`, a case always excluded by an
accompanying equation with `OnlineStatistics.init`). -/
def theInit (image_dimensions : List ℕ) (decimals : ℤ) (emptyBuf : ℕ → ℚ) :
    OnlineStatistics :=
  match OnlineStatistics.init image_dimensions decimals emptyBuf with
  | Except.ok st => st
  | Except.error _ => OnlineStatistics.mk 0 [] ⟨[], []⟩ ⟨[], []⟩ [] [] []

/-- The accumulator state left behind by a run of updates: the final
state on success, and the state at raise time when an exception
propagates (the Python object keeps its partial mutations). -/
def runUpdates (st : OnlineStatistics) (imgs : List NDArray) (lg : ℚ → ℚ)
    (lt : Bool) : OnlineStatistics :=
  match updateAll lg lt st imgs with
  | Except.ok s => s
  | Except.error e => e.2

/-- Projection to the `(n, mean, M2)` component of an `update` result, on both the
success and the exception path — the part of the state that claim C7
compares (everything except the percentile sums). -/
def updateCore (r : Except (String × OnlineStatistics) OnlineStatistics) :
    ℕ × NDArray × NDArray :=
  match r with
  | Except.ok st => (st.n, st.mean, st.M2)
  | Except.error e => (e.2.n, e.2.mean, e.2.M2)

/-! ### Broadcasting on equal shapes -/

theorem bcastRev_self (l : List ℕ) : bcastRev l l = some l := by
  induction l with
  | nil => rfl
  | cons a t ih => simp [bcastRev, ih]

theorem broadcastShape_self (s : List ℕ) : broadcastShape s s = some s := by
  simp [broadcastShape, bcastRev_self]

theorem unflatten_length (s : List ℕ) (k : ℕ) : (unflatten s k).length = s.length := by
  induction s generalizing k with
  | nil => rfl
  | cons d rest ih => simp [unflatten, ih]

theorem flattenIdx_clamp_unflatten (s : List ℕ) (k : ℕ) (hk : k < shapeProd s) :
    flattenIdx s (clampIdx s (unflatten s k)) = k := by
  induction s generalizing k with
  | nil =>
    have : k = 0 := Nat.lt_one_iff.mp hk
    simp [this, flattenIdx, clampIdx, unflatten]
  | cons d rest ih =>
    have hsp : shapeProd (d :: rest) = d * shapeProd rest := rfl
    have hP : 0 < shapeProd rest := by
      rcases Nat.eq_zero_or_pos (shapeProd rest) with h | h
      · rw [hsp, h, Nat.mul_zero] at hk
        exact absurd hk (Nat.not_lt_zero k)
      · exact h
    have hmod : k % shapeProd rest < shapeProd rest := Nat.mod_lt _ hP
    have ihm := ih _ hmod
    show (if d = 1 then 0 else k / shapeProd rest) * shapeProd rest +
        flattenIdx rest (clampIdx rest (unflatten rest (k % shapeProd rest))) = k
    rw [ihm]
    by_cases hd : d = 1
    · have hkP : k < shapeProd rest := by
        rw [hsp, hd, one_mul] at hk
        exact hk
      rw [if_pos hd, Nat.mod_eq_of_lt hkP, Nat.zero_mul, Nat.zero_add]
    · rw [if_neg hd]
      have h1 := Nat.div_add_mod k (shapeProd rest)
      have h2 : k / shapeProd rest * shapeProd rest = shapeProd rest * (k / shapeProd rest) :=
        Nat.mul_comm _ _
      omega

theorem srcFlat_unflatten (s : List ℕ) (k : ℕ) (hk : k < shapeProd s) :
    srcFlat s (unflatten s k) = k := by
  unfold srcFlat
  rw [unflatten_length, Nat.sub_self, List.drop_zero]
  exact flattenIdx_clamp_unflatten s k hk

theorem getD_zipWith {α : Type} (f : α → α → α) (xs ys : List α) (j : ℕ) (d : α)
    (hx : j < xs.length) (hy : j < ys.length) :
    (List.zipWith f xs ys).getD j d = f (xs.getD j d) (ys.getD j d) := by
  have hz : j < (List.zipWith f xs ys).length := by
    rw [List.length_zipWith]; omega
  rw [List.getD_eq_getElem _ _ hz, List.getD_eq_getElem _ _ hx, List.getD_eq_getElem _ _ hy]
  exact List.getElem_zipWith

theorem getD_map {α : Type} (f : α → α) (xs : List α) (j : ℕ) (d : α)
    (hx : j < xs.length) :
    (xs.map f).getD j d = f (xs.getD j d) := by
  have hm : j < (xs.map f).length := by rw [List.length_map]; exact hx
  rw [List.getD_eq_getElem _ _ hm, List.getD_eq_getElem _ _ hx]
  exact List.getElem_map f

/-- On equal, well-filled shapes `ewise` is exactly `zipWith` (numpy
broadcasting of a shape with itself is the identity). -/
theorem ewise_same (f : ℚ → ℚ → ℚ) (a b : NDArray) (hs : a.shape = b.shape)
    (ha : a.data.length = shapeProd a.shape) (hb : b.data.length = shapeProd a.shape) :
    ewise f a b = some ⟨a.shape, List.zipWith f a.data b.data⟩ := by
  unfold ewise
  rw [← hs, broadcastShape_self]
  have hdata : (List.range (shapeProd a.shape)).map
      (fun k => f (bget a (unflatten a.shape k)) (bget b (unflatten a.shape k))) =
      List.zipWith f a.data b.data := by
    apply List.ext_getElem
    · simp [List.length_zipWith, ha, hb]
    · intro j h1 h2
      have hj : j < shapeProd a.shape := by simpa using h1
      have hja : j < a.data.length := by rw [ha]; exact hj
      have hjb : j < b.data.length := by rw [hb]; exact hj
      simp only [List.getElem_map, List.getElem_range, List.getElem_zipWith]
      unfold bget
      rw [srcFlat_unflatten _ _ hj, ← hs, srcFlat_unflatten _ _ hj,
        List.getD_eq_getElem _ _ hja, List.getD_eq_getElem _ _ hjb]
  show some (NDArray.mk a.shape ((List.range (shapeProd a.shape)).map
      fun k => f (bget a (unflatten a.shape k)) (bget b (unflatten a.shape k)))) =
    some (NDArray.mk a.shape (List.zipWith f a.data b.data))
  rw [hdata]

/-! ### Scalar Welford recursion: closed form -/

theorem welfordStepQ_closed (x : ℚ) (n : ℕ) (s q : ℚ) (h0 : n = 0 → s = 0 ∧ q = 0) :
    welfordStepQ x (n + 1) (s / (n : ℚ)) (q - s ^ 2 / (n : ℚ)) =
      ((s + x) / ((n : ℚ) + 1), (q + x ^ 2) - (s + x) ^ 2 / ((n : ℚ) + 1)) := by
  rcases Nat.eq_zero_or_pos n with hn | hn
  · obtain ⟨hs, hq⟩ := h0 hn
    subst hn hs hq
    simp [welfordStepQ]
  · have hnQ : (n : ℚ) ≠ 0 := Nat.cast_ne_zero.mpr (Nat.pos_iff_ne_zero.mp hn)
    have hn1 : (n : ℚ) + 1 ≠ 0 := by positivity
    simp only [welfordStepQ, Prod.mk.injEq]
    push_cast
    constructor
    · field_simp
      ring
    · field_simp
      ring

theorem welfordFoldQ_closed (xs : List ℚ) (n : ℕ) (s q : ℚ) (h0 : n = 0 → s = 0 ∧ q = 0) :
    welfordFoldQ xs n (s / (n : ℚ), q - s ^ 2 / (n : ℚ)) =
      ((s + xs.sum) / ((n : ℚ) + xs.length),
        (q + (xs.map (· ^ 2)).sum) - (s + xs.sum) ^ 2 / ((n : ℚ) + xs.length)) := by
  induction xs generalizing n s q with
  | nil => simp [welfordFoldQ]
  | cons x xs ih =>
    show welfordFoldQ xs (n + 1) (welfordStepQ x (n + 1) (s / (n : ℚ)) (q - s ^ 2 / (n : ℚ))) = _
    rw [welfordStepQ_closed x n s q h0]
    have hcast : ((n : ℚ) + 1) = ((n + 1 : ℕ) : ℚ) := by push_cast; ring
    rw [hcast]
    rw [ih (n + 1) (s + x) (q + x ^ 2) (by omega)]
    simp only [List.sum_cons, List.map_cons, List.length_cons, Prod.mk.injEq]
    constructor <;> (push_cast; ring)

theorem welfordFoldQ_from_zero (xs : List ℚ) :
    welfordFoldQ xs 0 (0, 0) =
      (xs.sum / (xs.length : ℚ),
        (xs.map (· ^ 2)).sum - xs.sum ^ 2 / (xs.length : ℚ)) := by
  have h := welfordFoldQ_closed xs 0 0 0 (by simp)
  simpa using h

theorem sum_sq_dev (xs : List ℚ) (c : ℚ) :
    (xs.map fun x => (x - c) ^ 2).sum =
      (xs.map (· ^ 2)).sum - 2 * c * xs.sum + (xs.length : ℚ) * c ^ 2 := by
  induction xs with
  | nil => simp
  | cons x xs ih =>
    simp only [List.map_cons, List.sum_cons, List.length_cons, ih]
    push_cast
    ring

/-- The computational form `Q - S^2/L` equals the two-pass sum of squared
deviations from the mean, for a nonempty sample. -/
theorem two_pass_eq (xs : List ℚ) (hne : xs ≠ []) :
    (xs.map (· ^ 2)).sum - xs.sum ^ 2 / (xs.length : ℚ) =
      (xs.map fun x => (x - xs.sum / (xs.length : ℚ)) ^ 2).sum := by
  have hL : (xs.length : ℚ) ≠ 0 := by
    have : xs.length ≠ 0 := by
      intro h
      exact hne (List.length_eq_zero.mp h)
    exact_mod_cast this
  rw [sum_sq_dev xs (xs.sum / (xs.length : ℚ))]
  field_simp
  ring

/-! ### One well-shaped `update` step -/

/-- On an image whose shape (and data length) agrees with the
accumulator arrays, `update` with `log_transform = false` succeeds, adds
the image percentiles into the running sums, increments `n`, and
performs the scalar Welford step at every pixel position. -/
theorem update_wellShaped (st : OnlineStatistics) (img : NDArray) (lg : ℚ → ℚ)
    (dims : List ℕ) (P : ℕ) (hP : shapeProd dims = P)
    (hms : st.mean.shape = dims) (hml : st.mean.data.length = P)
    (hM2s : st.M2.shape = dims) (hM2l : st.M2.data.length = P)
    (his : img.shape = dims) (hil : img.data.length = P) :
    ∃ st', st.update img lg false = Except.ok st' ∧
      st'.n = st.n + 1 ∧
      st'.image_dimensions = st.image_dimensions ∧
      st'.q = st.q ∧ st'.keys = st.keys ∧
      st'.percentileSums =
        List.zipWith (· + ·) st.percentileSums (st.q.map (npPercentile img.data)) ∧
      st'.mean.shape = dims ∧ st'.mean.data.length = P ∧
      st'.M2.shape = dims ∧ st'.M2.data.length = P ∧
      ∀ j, j < P →
        (st'.mean.data.getD j 0, st'.M2.data.getD j 0) =
          welfordStepQ (img.data.getD j 0) (st.n + 1)
            (st.mean.data.getD j 0) (st.M2.data.getD j 0) := by
  have hsm : img.shape = st.mean.shape := by rw [his, hms]
  have hil' : img.data.length = shapeProd img.shape := by rw [his, hP, hil]
  have hml' : st.mean.data.length = shapeProd img.shape := by rw [his, hP, hml]
  have h1 := ewise_same (· - ·) img st.mean hsm hil' hml'
  set d1 : List ℚ := List.zipWith (· - ·) img.data st.mean.data with hd1
  have lend1 : d1.length = P := by
    rw [hd1, List.length_zipWith, hil, hml, min_self]
  set m1 : List ℚ := d1.map fun t => t / ((st.n + 1 : ℕ) : ℚ) with hm1
  have lenm1 : m1.length = P := by rw [hm1, List.length_map, lend1]
  have h2 := ewise_same (· + ·) st.mean ⟨img.shape, m1⟩
    (by rw [hms, his]) (by rw [hml, hms, hP]) (by simpa [hms, hP] using lenm1)
  set a2 : List ℚ := List.zipWith (· + ·) st.mean.data m1 with ha2
  have lena2 : a2.length = P := by
    rw [ha2, List.length_zipWith, hml, lenm1, min_self]
  have h3 := ewise_same (· - ·) img ⟨st.mean.shape, a2⟩
    (by rw [his, hms]) hil' (by simpa [his, hP] using lena2)
  set a3 : List ℚ := List.zipWith (· - ·) img.data a2 with ha3
  have lena3 : a3.length = P := by
    rw [ha3, List.length_zipWith, hil, lena2, min_self]
  have h4 := ewise_same (· * ·) ⟨img.shape, d1⟩ ⟨img.shape, a3⟩ rfl
    (by simpa [his, hP] using lend1) (by simpa [his, hP] using lena3)
  set a4 : List ℚ := List.zipWith (· * ·) d1 a3 with ha4
  have lena4 : a4.length = P := by
    rw [ha4, List.length_zipWith, lend1, lena3, min_self]
  have h5 := ewise_same (· + ·) st.M2 ⟨img.shape, a4⟩
    (by rw [hM2s, his]) (by rw [hM2l, hM2s, hP]) (by simpa [hM2s, hP] using lena4)
  set a5 : List ℚ := List.zipWith (· + ·) st.M2.data a4 with ha5
  have lena5 : a5.length = P := by
    rw [ha5, List.length_zipWith, hM2l, lena4, min_self]
  refine ⟨OnlineStatistics.mk (st.n + 1) st.image_dimensions ⟨st.mean.shape, a2⟩
    ⟨st.M2.shape, a5⟩ st.q
    (List.zipWith (· + ·) st.percentileSums (st.q.map (npPercentile img.data)))
    st.keys, ?_, ?_⟩
  · show OnlineStatistics.update st img lg false = _
    unfold OnlineStatistics.update
    simp only [Bool.false_eq_true, if_false]
    rw [h1]
    dsimp only [scalarMap]
    rw [h2]
    dsimp only
    rw [h3]
    dsimp only
    rw [h4]
    dsimp only
    rw [h5]
  · refine ⟨rfl, rfl, rfl, rfl, rfl, ?_, ?_, ?_, ?_, ?_⟩
    · show st.mean.shape = dims
      exact hms
    · show a2.length = P
      exact lena2
    · show st.M2.shape = dims
      exact hM2s
    · show a5.length = P
      exact lena5
    · intro j hj
      show (a2.getD j 0, a5.getD j 0) = _
      have hjd1 : j < d1.length := by omega
      have hjm1 : j < m1.length := by omega
      have hja2 : j < a2.length := by omega
      have hja3 : j < a3.length := by omega
      have hja4 : j < a4.length := by omega
      have hjmean : j < st.mean.data.length := by omega
      have hjM2 : j < st.M2.data.length := by omega
      have hjimg : j < img.data.length := by omega
      have ed1 : d1.getD j 0 = img.data.getD j 0 - st.mean.data.getD j 0 := by
        rw [hd1, getD_zipWith _ _ _ _ _ hjimg hjmean]
      have em1 : m1.getD j 0 = d1.getD j 0 / ((st.n + 1 : ℕ) : ℚ) := by
        rw [hm1, getD_map _ _ _ _ hjd1]
      have ea2 : a2.getD j 0 = st.mean.data.getD j 0 + m1.getD j 0 := by
        rw [ha2, getD_zipWith _ _ _ _ _ hjmean hjm1]
      have ea3 : a3.getD j 0 = img.data.getD j 0 - a2.getD j 0 := by
        rw [ha3, getD_zipWith _ _ _ _ _ hjimg hja2]
      have ea4 : a4.getD j 0 = d1.getD j 0 * a3.getD j 0 := by
        rw [ha4, getD_zipWith _ _ _ _ _ hjd1 hja3]
      have ea5 : a5.getD j 0 = st.M2.data.getD j 0 + a4.getD j 0 := by
        rw [ha5, getD_zipWith _ _ _ _ _ hjM2 hja4]
      rw [ea2, ea5, ea4, ea3, ea2, em1, ed1]
      rfl

/-- Folding `update` (with `log_transform = false`) over a list of
well-shaped images: the run succeeds, `n` grows by the number of images,
the percentile sums accumulate per image, and every pixel position
follows the scalar Welford recursion. -/
theorem updateAll_wellShaped (lg : ℚ → ℚ) (dims : List ℕ) (P : ℕ)
    (hP : shapeProd dims = P) (imgs : List NDArray)
    (him : ∀ img ∈ imgs, img.shape = dims ∧ img.data.length = P)
    (st : OnlineStatistics)
    (hms : st.mean.shape = dims) (hml : st.mean.data.length = P)
    (hM2s : st.M2.shape = dims) (hM2l : st.M2.data.length = P) :
    ∃ stN, updateAll lg false st imgs = Except.ok stN ∧
      stN.n = st.n + imgs.length ∧
      stN.image_dimensions = st.image_dimensions ∧
      stN.q = st.q ∧ stN.keys = st.keys ∧
      stN.percentileSums = imgs.foldl
        (fun acc im => List.zipWith (· + ·) acc (st.q.map (npPercentile im.data)))
        st.percentileSums ∧
      stN.mean.shape = dims ∧ stN.mean.data.length = P ∧
      stN.M2.shape = dims ∧ stN.M2.data.length = P ∧
      ∀ j, j < P →
        (stN.mean.data.getD j 0, stN.M2.data.getD j 0) =
          welfordFoldQ (imgs.map fun im => im.data.getD j 0) st.n
            (st.mean.data.getD j 0, st.M2.data.getD j 0) := by
  induction imgs generalizing st with
  | nil =>
    refine ⟨st, rfl, by simp, rfl, rfl, rfl, by simp, hms, hml, hM2s, hM2l, ?_⟩
    intro j hj
    rfl
  | cons img rest ih =>
    have himg := him img (List.mem_cons_self img rest)
    have hrest : ∀ im ∈ rest, im.shape = dims ∧ im.data.length = P := fun im hm =>
      him im (List.mem_cons_of_mem img hm)
    obtain ⟨st1, hok, hn1, hid1, hq1, hk1, hsums1, hms1, hml1, hM2s1, hM2l1, hstep⟩ :=
      update_wellShaped st img lg dims P hP hms hml hM2s hM2l himg.1 himg.2
    obtain ⟨stN, hokN, hnN, hidN, hqN, hkN, hsumsN, hmsN, hmlN, hM2sN, hM2lN, hfoldN⟩ :=
      ih hrest st1 hms1 hml1 hM2s1 hM2l1
    refine ⟨stN, ?_, ?_, ?_, ?_, ?_, ?_, hmsN, hmlN, hM2sN, hM2lN, ?_⟩
    · show updateAll lg false st (img :: rest) = Except.ok stN
      unfold updateAll
      rw [hok]
      exact hokN
    · rw [hnN, hn1, List.length_cons]
      omega
    · rw [hidN, hid1]
    · rw [hqN, hq1]
    · rw [hkN, hk1]
    · rw [hsumsN, hsums1, hq1, List.foldl_cons]
    · intro j hj
      rw [hfoldN j hj, hstep j hj, hn1, List.map_cons]
      rfl

theorem getD_map2 {α β : Type} (f : α → β) (xs : List α) (j : ℕ) (da : α) (db : β)
    (hx : j < xs.length) : (xs.map f).getD j db = f (xs.getD j da) := by
  have hm : j < (xs.map f).length := by rw [List.length_map]; exact hx
  rw [List.getD_eq_getElem _ _ hm, List.getD_eq_getElem _ _ hx]
  exact List.getElem_map f

theorem getD_replicate {α : Type} (n j : ℕ) (a d : α) (h : j < n) :
    (List.replicate n a).getD j d = a := by
  have hr : j < (List.replicate n a).length := by simpa using h
  rw [List.getD_eq_getElem _ _ hr]
  exact List.getElem_replicate a hr

/-- Claim C1. For every finite sequence of same-shaped arrays fed one at a
time to `update` with `log_transform = false`, starting from the
freshly created state (`n = 0`, zero-filled `mean` and `M2`): the run
succeeds, the final `mean` equals the elementwise arithmetic mean of
the sequence, and for `count ≥ 2` the `var` property equals
`M2 / (count - 1)`, which in turn equals the elementwise
Bessel-corrected two-pass sample variance — exactly, since the
embedding computes in ℚ.  Each update applies Welford's step in the
source order (`delta = pixels - mean`; `mean += delta / count`;
`M2 += delta * (pixels - updated mean)`), which is what
`OnlineStatistics.update` and the auxiliary `welfordStepQ` encode. -/
theorem welford_mean_and_variance (lg : ℚ → ℚ) (dims : List ℕ) (P : ℕ)
    (hP : shapeProd dims = P) (imgs : List NDArray)
    (him : ∀ img ∈ imgs, img.shape = dims ∧ img.data.length = P)
    (hne : imgs ≠ []) (st0 : OnlineStatistics)
    (h0n : st0.n = 0) (h0m : st0.mean = zerosArr dims) (h0M : st0.M2 = zerosArr dims) :
    ∃ stN, updateAll lg false st0 imgs = Except.ok stN ∧
      stN.n = imgs.length ∧
      (∀ j, j < P → stN.mean.data.getD j 0 = arithMeanAt imgs j) ∧
      (2 ≤ imgs.length → ∀ j, j < P →
        stN.var.getD j none = some (stN.M2.data.getD j 0 / ((imgs.length : ℚ) - 1)) ∧
        stN.M2.data.getD j 0 / ((imgs.length : ℚ) - 1) = sampleVarAt imgs j) := by
  have hms : st0.mean.shape = dims := by rw [h0m]; rfl
  have hml : st0.mean.data.length = P := by
    rw [h0m]; simpa [zerosArr] using hP
  have hM2s : st0.M2.shape = dims := by rw [h0M]; rfl
  have hM2l : st0.M2.data.length = P := by
    rw [h0M]; simpa [zerosArr] using hP
  obtain ⟨stN, hok, hn, hid, hq, hk, hsums, hmsN, hmlN, hM2sN, hM2lN, hfold⟩ :=
    updateAll_wellShaped lg dims P hP imgs him st0 hms hml hM2s hM2l
  have hnN : stN.n = imgs.length := by rw [hn, h0n, Nat.zero_add]
  have hzero : ∀ j, j < P →
      st0.mean.data.getD j 0 = 0 ∧ st0.M2.data.getD j 0 = 0 := by
    intro j hj
    constructor
    · rw [h0m]
      exact getD_replicate _ _ _ _ (hP ▸ hj)
    · rw [h0M]
      exact getD_replicate _ _ _ _ (hP ▸ hj)
  have hpair : ∀ j, j < P →
      (stN.mean.data.getD j 0, stN.M2.data.getD j 0) =
        ((imgs.map fun im => im.data.getD j 0).sum / ((imgs.length : ℚ)),
          ((imgs.map fun im => im.data.getD j 0).map (· ^ 2)).sum -
            (imgs.map fun im => im.data.getD j 0).sum ^ 2 / ((imgs.length : ℚ))) := by
    intro j hj
    obtain ⟨hz1, hz2⟩ := hzero j hj
    rw [hfold j hj, hz1, hz2, h0n, welfordFoldQ_from_zero]
    rw [List.length_map]
  have hLQ : ((imgs.length : ℚ)) ≠ 0 := by
    have : imgs.length ≠ 0 := fun h => hne (List.length_eq_zero.mp h)
    exact_mod_cast this
  refine ⟨stN, hok, hnN, ?_, ?_⟩
  · intro j hj
    have := congrArg Prod.fst (hpair j hj)
    simpa [arithMeanAt] using this
  · intro h2 j hj
    have hM2j := congrArg Prod.snd (hpair j hj)
    simp only at hM2j
    have hvar : stN.var = stN.M2.data.map fun x => some (x / ((stN.n : ℚ) - 1)) := by
      unfold OnlineStatistics.var
      rw [if_neg]
      omega
    constructor
    · rw [hvar, getD_map2 _ _ _ 0 none (by omega), hnN]
    · rw [hM2j]
      have hxs : (imgs.map fun im => im.data.getD j 0) ≠ [] := by
        intro h
        exact hne (List.map_eq_nil_iff.mp h)
      have htp := two_pass_eq (imgs.map fun im => im.data.getD j 0) hxs
      rw [List.length_map] at htp
      rw [htp]
      unfold sampleVarAt arithMeanAt
      rw [List.map_map]
      rfl

/-! ### Percentile sums under constant images -/

theorem getD_zipWith2 {α β γ : Type} (f : α → β → γ) (xs : List α) (ys : List β)
    (j : ℕ) (da : α) (db : β) (dc : γ) (hx : j < xs.length) (hy : j < ys.length) :
    (List.zipWith f xs ys).getD j dc = f (xs.getD j da) (ys.getD j db) := by
  have hz : j < (List.zipWith f xs ys).length := by
    rw [List.length_zipWith]; omega
  rw [List.getD_eq_getElem _ _ hz, List.getD_eq_getElem _ _ hx, List.getD_eq_getElem _ _ hy]
  exact List.getElem_zipWith

theorem linspace_length (a b : ℚ) (num : ℕ) : (linspace a b num).length = num := by
  unfold linspace
  rw [List.length_map, List.length_range]

theorem linspace_mem_bounds (num : ℕ) (h2 : 2 ≤ num) :
    ∀ x ∈ linspace 0 100 num, 0 ≤ x ∧ x ≤ 100 := by
  intro x hx
  unfold linspace at hx
  rw [List.mem_map] at hx
  obtain ⟨i, hi, rfl⟩ := hx
  rw [List.mem_range] at hi
  have hn : (2 : ℚ) ≤ (num : ℚ) := by exact_mod_cast h2
  have hiq : (i : ℚ) ≤ (num : ℚ) - 1 := by
    have h1 : (i : ℚ) + 1 ≤ (num : ℚ) := by exact_mod_cast hi
    linarith
  have hi0 : (0 : ℚ) ≤ (i : ℚ) := by positivity
  have hden : (0 : ℚ) < (num : ℚ) - 1 := by linarith
  constructor
  · have h1 : (0 : ℚ) ≤ (100 - 0) * (i : ℚ) / ((num : ℚ) - 1) := by positivity
    linarith
  · have h1 : (100 - 0) * (i : ℚ) / ((num : ℚ) - 1) ≤ 100 := by
      rw [div_le_iff₀ hden]
      nlinarith
    linarith

theorem npPercentile_const (m : ℕ) (v q : ℚ) (hm : 0 < m) (hq0 : 0 ≤ q)
    (hq100 : q ≤ 100) : npPercentile (List.replicate m v) q = v := by
  simp only [npPercentile]
  set s := (List.replicate m v).mergeSort fun a b => decide (a ≤ b) with hs
  have hperm : s.Perm (List.replicate m v) := List.mergeSort_perm _ _
  have hlen : s.length = m := by
    rw [hperm.length_eq, List.length_replicate]
  have hmem : ∀ x ∈ s, x = v := fun x hx =>
    List.eq_of_mem_replicate (hperm.mem_iff.mp hx)
  have hidx : q / 100 * ((s.length : ℚ) - 1) ≤ (m : ℚ) - 1 := by
    rw [hlen]
    have hmq : (1 : ℚ) ≤ (m : ℚ) := by exact_mod_cast hm
    have hq1 : q / 100 ≤ 1 := by
      rw [div_le_one (by norm_num)]
      exact hq100
    nlinarith
  have hfl : ⌊q / 100 * ((s.length : ℚ) - 1)⌋ ≤ (m : ℤ) - 1 := by
    have h1 : ((m : ℤ) - 1 : ℤ) = ⌊((m : ℚ) - 1)⌋ := by
      rw [show ((m : ℚ) - 1) = (((m : ℤ) - 1 : ℤ) : ℚ) by push_cast; ring, Int.floor_intCast]
    rw [h1]
    exact Int.floor_le_floor hidx
  have hbelow : (⌊q / 100 * ((s.length : ℚ) - 1)⌋).toNat < m := by
    have := Int.toNat_le_toNat hfl
    have h2 : ((m : ℤ) - 1).toNat = m - 1 := by omega
    omega
  have habove : min ((⌊q / 100 * ((s.length : ℚ) - 1)⌋).toNat + 1) (s.length - 1) < m := by
    rw [hlen]
    omega
  have hb : s.getD (⌊q / 100 * ((s.length : ℚ) - 1)⌋).toNat 0 = v := by
    have hlt : (⌊q / 100 * ((s.length : ℚ) - 1)⌋).toNat < s.length := by omega
    rw [List.getD_eq_getElem _ _ hlt]
    exact hmem _ (List.getElem_mem hlt)
  have ha : s.getD (min ((⌊q / 100 * ((s.length : ℚ) - 1)⌋).toNat + 1) (s.length - 1)) 0 = v := by
    have hlt : min ((⌊q / 100 * ((s.length : ℚ) - 1)⌋).toNat + 1) (s.length - 1) < s.length := by
      omega
    rw [List.getD_eq_getElem _ _ hlt]
    exact hmem _ (List.getElem_mem hlt)
  rw [hb, ha]
  ring

theorem map_range_const {α : Type} (n : ℕ) (c : α) :
    (List.range n).map (fun _ => c) = List.replicate n c := by
  apply List.ext_getElem
  · simp
  · intro j h1 h2
    simp

theorem zipWith_add_const (p : ℕ) (c : ℚ) (qs : List ℚ) (f : ℚ → ℚ) (v : ℚ)
    (hlen : qs.length = p) (hf : ∀ q ∈ qs, f q = v) :
    List.zipWith (· + ·) (List.replicate p c) (qs.map f) = List.replicate p (c + v) := by
  apply List.ext_getElem
  · simp [hlen]
  · intro j h1 h2
    have hj : j < qs.length := by
      simp [List.length_zipWith, hlen] at h1
      omega
    simp only [List.getElem_zipWith, List.getElem_replicate, List.getElem_map]
    rw [hf _ (List.getElem_mem hj)]

theorem const_fold (img : NDArray) (qs : List ℚ) (p : ℕ) (hlen : qs.length = p)
    (v : ℚ) (hq : ∀ q ∈ qs, npPercentile img.data q = v) (k : ℕ) (c : ℚ) :
    (List.replicate k img).foldl
      (fun acc im => List.zipWith (· + ·) acc (qs.map (npPercentile im.data)))
      (List.replicate p c) = List.replicate p (c + (k : ℚ) * v) := by
  induction k generalizing c with
  | zero => simp
  | succ k ih =>
    rw [List.replicate_succ, List.foldl_cons, zipWith_add_const p c qs _ v hlen hq, ih]
    congr 1
    push_cast
    ring

theorem theInit_eq (dims : List ℕ) (d : ℤ) (buf : ℕ → ℚ) (hd : 0 ≤ d ∧ d ≤ 3) :
    OnlineStatistics.init dims d buf = Except.ok (theInit dims d buf) ∧
    theInit dims d buf = OnlineStatistics.mk 0 dims (zerosArr dims) (zerosArr dims)
      (linspace 0 100 (10 ^ (d.toNat + 2)))
      ((List.range (10 ^ (d.toNat + 2))).map buf)
      ((linspace 0 100 (10 ^ (d.toNat + 2))).map fun x => pyRound x d.toNat) := by
  have hcond : ¬¬(0 ≤ d ∧ d ≤ 3) := not_not_intro hd
  constructor
  · unfold theInit OnlineStatistics.init
    rw [if_neg hcond]
  · unfold theInit OnlineStatistics.init
    rw [if_neg hcond]

theorem pyInt_intCast (v : ℤ) : pyInt ((v : ℚ)) = v := by
  unfold pyInt
  split
  · exact Int.floor_intCast v
  · exact Int.ceil_intCast v

theorem percentiles_getD (st : OnlineStatistics) (j : ℕ) (hk : j < st.keys.length)
    (hs : j < st.percentileSums.length) :
    (st.percentiles.map Prod.snd).getD j 0 =
      pyInt (st.percentileSums.getD j 0 / (st.n : ℚ)) := by
  unfold OnlineStatistics.percentiles
  rw [getD_map2 Prod.snd _ _ ((0 : ℚ), (0 : ℤ)) 0 (by rw [List.length_zipWith]; omega),
    getD_zipWith2 _ _ _ _ 0 0 ((0 : ℚ), (0 : ℤ)) hk hs]

/-- A freshly initialised accumulator whose `np.empty` buffer happens to
contain the constant `c`, fed `count` copies of the constant image of
value `v`: the run succeeds, and every running percentile sum ends at
`c + count * v`. -/
theorem const_update_run (lg : ℚ → ℚ) (dims : List ℕ) (P : ℕ) (hP : shapeProd dims = P)
    (hPpos : 0 < P) (d : ℤ) (hd : 0 ≤ d ∧ d ≤ 3) (c v : ℚ) (count : ℕ) :
    ∃ stN, updateAll lg false (theInit dims d (fun _ => c))
        (List.replicate count ⟨dims, List.replicate P v⟩) = Except.ok stN ∧
      stN.n = count ∧
      stN.keys.length = 10 ^ (d.toNat + 2) ∧
      stN.percentileSums = List.replicate (10 ^ (d.toNat + 2)) (c + (count : ℚ) * v) := by
  obtain ⟨hinit, hfields⟩ := theInit_eq dims d (fun _ => c) hd
  set st0 := theInit dims d (fun _ => c) with hst0
  set precision : ℕ := 10 ^ (d.toNat + 2) with hprec
  have hms : st0.mean.shape = dims := by rw [hfields]; rfl
  have hml : st0.mean.data.length = P := by
    rw [hfields]
    simpa [zerosArr] using hP
  have hM2s : st0.M2.shape = dims := by rw [hfields]; rfl
  have hM2l : st0.M2.data.length = P := by
    rw [hfields]
    simpa [zerosArr] using hP
  have him : ∀ img ∈ List.replicate count (NDArray.mk dims (List.replicate P v)),
      img.shape = dims ∧ img.data.length = P := by
    intro img hmem
    rw [List.eq_of_mem_replicate hmem]
    exact ⟨rfl, List.length_replicate _ _⟩
  obtain ⟨stN, hok, hn, hid, hq, hk, hsums, hmsN, hmlN, hM2sN, hM2lN, hfold⟩ :=
    updateAll_wellShaped lg dims P hP _ him st0 hms hml hM2s hM2l
  refine ⟨stN, hok, ?_, ?_, ?_⟩
  · rw [hn, hfields]
    simp
  · rw [hk, hfields]
    show ((linspace 0 100 precision).map fun x => pyRound x d.toNat).length = precision
    rw [List.length_map, linspace_length]
  · have hqgrid : st0.q = linspace 0 100 precision := by rw [hfields]
    have hsums0 : st0.percentileSums = List.replicate precision c := by
      rw [hfields]
      exact map_range_const precision c
    show stN.percentileSums = List.replicate precision (c + (count : ℚ) * v)
    rw [hsums, hqgrid, hsums0]
    have h100 : 2 ≤ precision := by
      have : 10 ^ 2 ≤ 10 ^ (d.toNat + 2) := Nat.pow_le_pow_right (by norm_num) (by omega)
      omega
    have hbound := linspace_mem_bounds precision h100
    exact const_fold ⟨dims, List.replicate P v⟩ (linspace 0 100 precision) precision
      (linspace_length _ _ _) v
      (fun q hq => npPercentile_const P v q hPpos (hbound q hq).1 (hbound q hq).2)
      count c

theorem linspace_getD_zero (a b : ℚ) (num : ℕ) (h : 0 < num) :
    (linspace a b num).getD 0 0 = a := by
  unfold linspace
  rw [getD_map2 _ _ _ 0 0 (by simpa using h)]
  have h0 : (List.range num).getD 0 0 = 0 := by
    rw [List.getD_eq_getElem _ _ (by simpa using h)]
    exact List.getElem_range 0 (by simpa using h)
  rw [h0]
  norm_num

/-- A run of exactly two well-shaped images from a fresh accumulator
whose `np.empty` buffer contains the constant `c`: pointwise value of
the final running percentile sums. -/
theorem run_from_init_two (lg : ℚ → ℚ) (dims : List ℕ) (P : ℕ) (hP : shapeProd dims = P)
    (d : ℤ) (hd : 0 ≤ d ∧ d ≤ 3) (c : ℚ) (imgA imgB : NDArray)
    (hA1 : imgA.shape = dims) (hA2 : imgA.data.length = P)
    (hB1 : imgB.shape = dims) (hB2 : imgB.data.length = P) :
    ∃ stN, updateAll lg false (theInit dims d (fun _ => c)) [imgA, imgB] = Except.ok stN ∧
      runUpdates (theInit dims d (fun _ => c)) [imgA, imgB] lg false = stN ∧
      stN.n = 2 ∧
      stN.keys.length = 10 ^ (d.toNat + 2) ∧
      stN.percentileSums.length = 10 ^ (d.toNat + 2) ∧
      ∀ j, j < 10 ^ (d.toNat + 2) →
        stN.percentileSums.getD j 0 =
          c + npPercentile imgA.data ((linspace 0 100 (10 ^ (d.toNat + 2))).getD j 0)
            + npPercentile imgB.data ((linspace 0 100 (10 ^ (d.toNat + 2))).getD j 0) := by
  obtain ⟨hinit, hfields⟩ := theInit_eq dims d (fun _ => c) hd
  set st0 := theInit dims d (fun _ => c) with hst0
  set precision : ℕ := 10 ^ (d.toNat + 2) with hprec
  have hms : st0.mean.shape = dims := by rw [hfields]; rfl
  have hml : st0.mean.data.length = P := by
    rw [hfields]; simpa [zerosArr] using hP
  have hM2s : st0.M2.shape = dims := by rw [hfields]; rfl
  have hM2l : st0.M2.data.length = P := by
    rw [hfields]; simpa [zerosArr] using hP
  have him : ∀ img ∈ [imgA, imgB], img.shape = dims ∧ img.data.length = P := by
    intro img hmem
    rcases List.mem_pair.mp hmem with h | h <;> subst h
    · exact ⟨hA1, hA2⟩
    · exact ⟨hB1, hB2⟩
  obtain ⟨stN, hok, hn, hid, hq, hk, hsums, hmsN, hmlN, hM2sN, hM2lN, hfold⟩ :=
    updateAll_wellShaped lg dims P hP _ him st0 hms hml hM2s hM2l
  have hq0 : st0.q = linspace 0 100 precision := by rw [hfields]
  have hsums0 : st0.percentileSums = List.replicate precision c := by
    rw [hfields]
    exact map_range_const precision c
  have hsumsN : stN.percentileSums =
      List.zipWith (· + ·)
        (List.zipWith (· + ·) (List.replicate precision c)
          ((linspace 0 100 precision).map (npPercentile imgA.data)))
        ((linspace 0 100 precision).map (npPercentile imgB.data)) := by
    rw [hsums, hq0, hsums0]
    rfl
  have hlenN : stN.percentileSums.length = precision := by
    rw [hsumsN]
    simp [List.length_zipWith, linspace_length]
  refine ⟨stN, hok, ?_, ?_, ?_, hlenN, ?_⟩
  · unfold runUpdates
    rw [hok]
  · rw [hn, hfields]
    rfl
  · rw [hk, hfields]
    show ((linspace 0 100 precision).map fun x => pyRound x d.toNat).length = precision
    rw [List.length_map, linspace_length]
  · intro j hj
    have hjr : j < (List.replicate precision c).length := by simpa using hj
    have hjA : j < ((linspace 0 100 precision).map (npPercentile imgA.data)).length := by
      rw [List.length_map, linspace_length]; exact hj
    have hjB : j < ((linspace 0 100 precision).map (npPercentile imgB.data)).length := by
      rw [List.length_map, linspace_length]; exact hj
    have hjz : j < (List.zipWith (· + ·) (List.replicate precision c)
        ((linspace 0 100 precision).map (npPercentile imgA.data))).length := by
      rw [List.length_zipWith]; omega
    have hjg : j < (linspace 0 100 precision).length := by
      rw [linspace_length]; exact hj
    rw [hsumsN, getD_zipWith _ _ _ _ _ hjz hjB, getD_zipWith _ _ _ _ _ hjr hjA,
      getD_replicate _ _ _ _ hj, getD_map2 _ _ _ 0 0 hjg, getD_map2 _ _ _ 0 0 hjg]

/-- Claim C4, amended. The percentiles accessor divides each running
percentile sum by `count` and truncates with Python `int()` (toward
zero) — not `round`.  With that correction the constant round-trip
holds, provided the uninitialised `np.empty` percentile buffer is
taken to be zero-filled: an accumulator created with a zero buffer and
fed the constant integer-valued image `v` `count ≥ 1` times maps every
percentile key to exactly `v`. -/
theorem percentile_roundtrip_amended (lg : ℚ → ℚ) (dims : List ℕ) (P : ℕ)
    (hP : shapeProd dims = P) (hPpos : 0 < P) (d : ℤ) (hd : 0 ≤ d ∧ d ≤ 3)
    (v : ℤ) (count : ℕ) (hc : 1 ≤ count) :
    OnlineStatistics.init dims d (fun _ => 0) = Except.ok (theInit dims d (fun _ => 0)) ∧
    ∃ stN, updateAll lg false (theInit dims d (fun _ => 0))
        (List.replicate count ⟨dims, List.replicate P ((v : ℚ))⟩) = Except.ok stN ∧
      stN.n = count ∧ 0 < stN.keys.length ∧
      ∀ j, j < stN.keys.length → (stN.percentiles.map Prod.snd).getD j 0 = v := by
  obtain ⟨hinit, hfields⟩ := theInit_eq dims d (fun _ => 0) hd
  refine ⟨hinit, ?_⟩
  obtain ⟨stN, hok, hn, hklen, hsums⟩ :=
    const_update_run lg dims P hP hPpos d hd 0 ((v : ℚ)) count
  have hcount : (count : ℚ) ≠ 0 := by
    exact_mod_cast Nat.pos_iff_ne_zero.mp hc
  refine ⟨stN, hok, hn, ?_, ?_⟩
  · rw [hklen]
    positivity
  · intro j hj
    have hjp : j < 10 ^ (d.toNat + 2) := by rw [← hklen]; exact hj
    have hslen : j < stN.percentileSums.length := by
      rw [hsums, List.length_replicate]; exact hjp
    rw [percentiles_getD stN j hj hslen, hsums, getD_replicate _ _ _ _ hjp, hn]
    have hval : (0 + (count : ℚ) * (v : ℚ)) / (count : ℚ) = (v : ℚ) := by
      field_simp
    rw [hval, pyInt_intCast]

/-- Witness for `percentile_roundtrip_amended`: one-pixel images of
constant value 7, fed twice at `decimals = 0`. -/
theorem percentile_roundtrip_amended_witness :
    OnlineStatistics.init [1] 0 (fun _ => 0) = Except.ok (theInit [1] 0 (fun _ => 0)) ∧
    ∃ stN, updateAll id false (theInit [1] 0 (fun _ => 0))
        (List.replicate 2 ⟨[1], List.replicate 1 ((7 : ℤ) : ℚ)⟩) = Except.ok stN ∧
      stN.n = 2 ∧ 0 < stN.keys.length ∧
      ∀ j, j < stN.keys.length → (stN.percentiles.map Prod.snd).getD j 0 = 7 :=
  percentile_roundtrip_amended id [1] 1 rfl (by norm_num) 0 (by norm_num) 7 2 (by norm_num)

/-- Claim C4, counterexample. Claim C4 as stated is false on the code in
two ways.  (a) The accessor truncates instead of rounding: a fresh
accumulator (zero buffer, `decimals = 0`) fed the one-pixel images 3
then 4 has every percentile sum 7 and `count = 2`; the accessor yields
`int(7/2) = 3` whereas the claimed `round(7/2)` is 4.  (b) The source
initialises the running sums with `np.empty`, so the constant
round-trip fails whenever the uninitialised buffer is nonzero: with
buffer contents 100 and the constant image 5 fed twice, every
percentile value is `int(110/2) = 55`, not 5. -/
theorem percentile_roundtrip_counterexample :
    (OnlineStatistics.init [1] 0 (fun _ => 0) = Except.ok (theInit [1] 0 (fun _ => 0)) ∧
      (runUpdates (theInit [1] 0 (fun _ => 0)) [⟨[1], [3]⟩, ⟨[1], [4]⟩] id false).n = 2 ∧
      (runUpdates (theInit [1] 0 (fun _ => 0)) [⟨[1], [3]⟩, ⟨[1], [4]⟩] id
          false).percentileSums.getD 0 0 = 7 ∧
      ((runUpdates (theInit [1] 0 (fun _ => 0)) [⟨[1], [3]⟩, ⟨[1], [4]⟩] id
          false).percentiles.map Prod.snd).getD 0 0 = 3 ∧
      specRoundedPercentile 7 2 = 4 ∧
      ((runUpdates (theInit [1] 0 (fun _ => 0)) [⟨[1], [3]⟩, ⟨[1], [4]⟩] id
          false).percentiles.map Prod.snd).getD 0 0 ≠ specRoundedPercentile 7 2) ∧
    (((runUpdates (theInit [1] 0 (fun _ => 100)) [⟨[1], [5]⟩, ⟨[1], [5]⟩] id
          false).percentiles.map Prod.snd).getD 0 0 = 55 ∧
      ((runUpdates (theInit [1] 0 (fun _ => 100)) [⟨[1], [5]⟩, ⟨[1], [5]⟩] id
          false).percentiles.map Prod.snd).getD 0 0 ≠ 5) := by
  have hd : (0 : ℤ) ≤ 0 ∧ (0 : ℤ) ≤ 3 := by norm_num
  have hprec : 10 ^ ((0 : ℤ).toNat + 2) = 100 := by norm_num
  have hsing : ∀ x : ℚ, [x] = List.replicate 1 x := fun x => rfl
  have hnp : ∀ x : ℚ, npPercentile [x] 0 = x := by
    intro x
    rw [hsing x]
    exact npPercentile_const 1 x 0 (by norm_num) (by norm_num) (by norm_num)
  have hgrid0 : (linspace 0 100 (10 ^ ((0 : ℤ).toNat + 2))).getD 0 0 = 0 := by
    apply linspace_getD_zero
    rw [hprec]
    norm_num
  obtain ⟨stA, hokA, hrunA, hnA, hkA, hlA, hsA⟩ :=
    run_from_init_two id [1] 1 rfl 0 hd 0 ⟨[1], [3]⟩ ⟨[1], [4]⟩ rfl rfl rfl rfl
  obtain ⟨stB, hokB, hrunB, hnB, hkB, hlB, hsB⟩ :=
    run_from_init_two id [1] 1 rfl 0 hd 100 ⟨[1], [5]⟩ ⟨[1], [5]⟩ rfl rfl rfl rfl
  have h0A : (0 : ℕ) < 10 ^ ((0 : ℤ).toNat + 2) := by rw [hprec]; norm_num
  have hsumA : stA.percentileSums.getD 0 0 = 7 := by
    rw [hsA 0 h0A, hgrid0, hnp, hnp]
    norm_num
  have hsumB : stB.percentileSums.getD 0 0 = 110 := by
    rw [hsB 0 h0A, hgrid0, hnp]
    norm_num
  have hvalA : ((stA.percentiles.map Prod.snd).getD 0 0) = 3 := by
    rw [percentiles_getD stA 0 (by omega) (by omega), hsumA, hnA]
    norm_num [pyInt]
  have hvalB : ((stB.percentiles.map Prod.snd).getD 0 0) = 55 := by
    rw [percentiles_getD stB 0 (by omega) (by omega), hsumB, hnB]
    norm_num [pyInt]
  have hround : specRoundedPercentile 7 2 = 4 := by
    norm_num [specRoundedPercentile]
  rw [hrunA, hrunB]
  refine ⟨⟨(theInit_eq [1] 0 (fun _ => 0) hd).1, hnA, hsumA, hvalA, hround, ?_⟩,
    hvalB, ?_⟩
  · rw [hvalA, hround]
    norm_num
  · rw [hvalB]
    norm_num

/-- Witness for `welford_mean_and_variance`: two 2-pixel images. -/
theorem welford_mean_and_variance_witness :
    ∃ stN, updateAll id false
        (OnlineStatistics.mk 0 [2] (zerosArr [2]) (zerosArr [2]) [] [] [])
        [⟨[2], [1, 3]⟩, ⟨[2], [5, 7]⟩] = Except.ok stN ∧
      stN.n = ([(⟨[2], [1, 3]⟩ : NDArray), ⟨[2], [5, 7]⟩]).length ∧
      (∀ j, j < 2 → stN.mean.data.getD j 0 =
        arithMeanAt [⟨[2], [1, 3]⟩, ⟨[2], [5, 7]⟩] j) ∧
      (2 ≤ ([(⟨[2], [1, 3]⟩ : NDArray), ⟨[2], [5, 7]⟩]).length → ∀ j, j < 2 →
        stN.var.getD j none = some (stN.M2.data.getD j 0 /
          ((([(⟨[2], [1, 3]⟩ : NDArray), ⟨[2], [5, 7]⟩]).length : ℚ) - 1)) ∧
        stN.M2.data.getD j 0 /
            ((([(⟨[2], [1, 3]⟩ : NDArray), ⟨[2], [5, 7]⟩]).length : ℚ) - 1) =
          sampleVarAt [⟨[2], [1, 3]⟩, ⟨[2], [5, 7]⟩] j) :=
  welford_mean_and_variance id [2] 2 rfl [⟨[2], [1, 3]⟩, ⟨[2], [5, 7]⟩]
    (by
      intro img h
      rcases List.mem_pair.mp h with h | h <;> subst h <;> exact ⟨rfl, rfl⟩)
    (by simp) (OnlineStatistics.mk 0 [2] (zerosArr [2]) (zerosArr [2]) [] [] [])
    rfl rfl rfl

/-- Claim C8. The `var` property is total: after a run of fewer than two
updates (`count = 0` or `count = 1`) every element of `var` is NaN
(`none`); after two or more updates every element is the finite value
`M2 / (count - 1)` (in the exact-rational embedding every `some` value
is a finite number). -/
theorem variance_nan_policy (lg : ℚ → ℚ) (dims : List ℕ) (P : ℕ)
    (hP : shapeProd dims = P) (imgs : List NDArray)
    (him : ∀ img ∈ imgs, img.shape = dims ∧ img.data.length = P)
    (st0 : OnlineStatistics) (h0n : st0.n = 0) (h0d : st0.image_dimensions = dims)
    (h0m : st0.mean = zerosArr dims) (h0M : st0.M2 = zerosArr dims) :
    ∃ stN, updateAll lg false st0 imgs = Except.ok stN ∧
      stN.n = imgs.length ∧
      stN.var.length = P ∧
      (imgs.length < 2 → ∀ x ∈ stN.var, x = none) ∧
      (2 ≤ imgs.length → ∀ j, j < P →
        stN.var.getD j none = some (stN.M2.data.getD j 0 / ((imgs.length : ℚ) - 1))) := by
  have hms : st0.mean.shape = dims := by rw [h0m]; rfl
  have hml : st0.mean.data.length = P := by rw [h0m]; simpa [zerosArr] using hP
  have hM2s : st0.M2.shape = dims := by rw [h0M]; rfl
  have hM2l : st0.M2.data.length = P := by rw [h0M]; simpa [zerosArr] using hP
  obtain ⟨stN, hok, hn, hid, hq, hk, hsums, hmsN, hmlN, hM2sN, hM2lN, hfold⟩ :=
    updateAll_wellShaped lg dims P hP imgs him st0 hms hml hM2s hM2l
  have hnN : stN.n = imgs.length := by rw [hn, h0n, Nat.zero_add]
  have hdN : stN.image_dimensions = dims := by rw [hid, h0d]
  refine ⟨stN, hok, hnN, ?_, ?_, ?_⟩
  · unfold OnlineStatistics.var
    split
    · rw [List.length_replicate, hdN, hP]
    · rw [List.length_map, hM2lN]
  · intro hlt x hx
    unfold OnlineStatistics.var at hx
    rw [if_pos (by omega)] at hx
    exact List.eq_of_mem_replicate hx
  · intro h2 j hj
    have hvar : stN.var = stN.M2.data.map fun x => some (x / ((stN.n : ℚ) - 1)) := by
      unfold OnlineStatistics.var
      rw [if_neg (by omega)]
    rw [hvar, getD_map2 _ _ _ 0 none (by omega), hnN]

/-- Witness for `variance_nan_policy`: a single one-pixel image
(`count = 1`, the NaN case) — and the `count ≥ 2` branch instantiated
vacuously-free by the same theorem at two images is covered by
`welford_mean_and_variance_witness`. -/
theorem variance_nan_policy_witness :
    ∃ stN, updateAll id false
        (OnlineStatistics.mk 0 [1] (zerosArr [1]) (zerosArr [1]) [] [] [])
        [⟨[1], [2]⟩] = Except.ok stN ∧
      stN.n = ([(⟨[1], [2]⟩ : NDArray)]).length ∧
      stN.var.length = 1 ∧
      (([(⟨[1], [2]⟩ : NDArray)]).length < 2 → ∀ x ∈ stN.var, x = none) ∧
      (2 ≤ ([(⟨[1], [2]⟩ : NDArray)]).length → ∀ j, j < 1 →
        stN.var.getD j none = some (stN.M2.data.getD j 0 /
          ((([(⟨[1], [2]⟩ : NDArray)]).length : ℚ) - 1))) :=
  variance_nan_policy id [1] 1 rfl [⟨[1], [2]⟩]
    (by
      intro img h
      rw [List.mem_singleton.mp h]
      exact ⟨rfl, rfl⟩)
    (OnlineStatistics.mk 0 [1] (zerosArr [1]) (zerosArr [1]) [] [] [])
    rfl rfl rfl rfl

/-- Whatever happens after the percentile statement of `update`
(success or a broadcast exception), the state carried out has the
percentile sums already updated from the **raw** image pixels and `n`
already incremented — those two statements precede the array
arithmetic. -/
theorem update_carried_state (st : OnlineStatistics) (img : NDArray) (lg : ℚ → ℚ)
    (b : Bool) :
    (match st.update img lg b with
      | Except.ok s => s
      | Except.error e => e.2).percentileSums =
      List.zipWith (· + ·) st.percentileSums (st.q.map (npPercentile img.data)) ∧
    (match st.update img lg b with
      | Except.ok s => s
      | Except.error e => e.2).n = st.n + 1 := by
  unfold OnlineStatistics.update
  dsimp only
  constructor <;>
    (split <;> rename_i heq <;> (repeat' split at heq) <;> cases heq <;> rfl)

/-- Claim C7, amended. `update(image, log_transform=True)` and
`update(log10(image), log_transform=False)` agree on `count`, `mean`
and `M2` — on the success path and on the broadcast-exception path
alike — because both runs feed the same transformed array into the
Welford statements.  They do **not** agree on the running percentile
sums: the percentile statement uses the raw pixels of its argument, so
the first run accumulates percentiles of `image` and the second run
percentiles of `log10(image)` (see
`log_transform_percentiles_counterexample`). -/
theorem log_transform_core_equiv (st : OnlineStatistics) (img : NDArray) (lg : ℚ → ℚ) :
    updateCore (st.update img lg true) =
      updateCore (st.update (scalarMap lg img) lg false) := by
  unfold OnlineStatistics.update updateCore
  dsimp only
  rw [show (if true = true then scalarMap lg img else img) = scalarMap lg img from rfl]
  rw [show (if false = true then scalarMap lg (scalarMap lg img) else scalarMap lg img) =
    scalarMap lg img from rfl]
  split <;> rename_i heq1 <;> (repeat' split at heq1) <;> cases heq1 <;> simp_all

/-- Claim C7, counterexample. The full accumulator state after
`update(image, log_transform=True)` differs from the state after
`update(log10(image), log_transform=False)`: the percentile sums are
taken from the raw pixels of the argument.  Concrete input: a fresh
accumulator (`decimals = 0`, zero buffer) and the one-pixel image of
value 1; `np.log10` is modelled by the stand-in function that is
constantly 0, which agrees with the real base-10 logarithm at the only
pixel value used (`log10 1 = 0`).  The first call accumulates the
percentile 1 of the raw image, the second the percentile 0 of the
transformed image, so the two result states differ. -/
theorem log_transform_percentiles_counterexample :
    OnlineStatistics.update (theInit [1] 0 (fun _ => 0)) ⟨[1], [1]⟩ (fun _ => 0) true ≠
      OnlineStatistics.update (theInit [1] 0 (fun _ => 0))
        (scalarMap (fun _ => 0) ⟨[1], [1]⟩) (fun _ => 0) false := by
  intro h
  have hd : (0 : ℤ) ≤ 0 ∧ (0 : ℤ) ≤ 3 := by norm_num
  obtain ⟨hinit, hfields⟩ := theInit_eq [1] 0 (fun _ => 0) hd
  set st0 := theInit [1] 0 (fun _ => 0) with hst0
  have h2 := congrArg (fun r =>
    ((match r with
      | Except.ok s => s
      | Except.error e => e.2 : OnlineStatistics)).percentileSums.getD 0 0) h
  simp only at h2
  have hA := (update_carried_state st0 ⟨[1], [1]⟩ (fun _ => 0) true).1
  have hB := (update_carried_state st0 (scalarMap (fun _ => 0) ⟨[1], [1]⟩)
    (fun _ => 0) false).1
  rw [hA, hB] at h2
  have hdata : (scalarMap (fun _ => (0 : ℚ)) ⟨[1], [1]⟩).data = [(0 : ℚ)] := rfl
  rw [hdata] at h2
  have h100 : (10 : ℕ) ^ ((0 : ℤ).toNat + 2) = 100 := by norm_num
  have hsums0 : st0.percentileSums = List.replicate 100 0 := by
    rw [hfields]
    show (List.range (10 ^ ((0 : ℤ).toNat + 2))).map (fun _ => (0 : ℚ)) = _
    rw [map_range_const, h100]
  have hq0 : st0.q = linspace 0 100 100 := by
    rw [hfields]
    show linspace 0 100 (10 ^ ((0 : ℤ).toNat + 2)) = _
    rw [h100]
  rw [hsums0, hq0] at h2
  have hglen : (linspace 0 100 100).length = 100 := linspace_length _ _ _
  have hgD : (linspace 0 100 100).getD 0 0 = 0 := linspace_getD_zero _ _ _ (by norm_num)
  have hmaplen : ∀ f : ℚ → ℚ, ((linspace 0 100 100).map f).length = 100 := by
    intro f
    rw [List.length_map, hglen]
  rw [getD_zipWith _ _ _ 0 _ (by simp) (by rw [hmaplen]; norm_num),
    getD_zipWith _ _ _ 0 _ (by simp) (by rw [hmaplen]; norm_num),
    getD_replicate _ _ _ _ (by norm_num),
    getD_map2 _ _ _ 0 0 (by rw [hglen]; norm_num),
    getD_map2 _ _ _ 0 0 (by rw [hglen]; norm_num), hgD] at h2
  have hnp1 : npPercentile [(1 : ℚ)] 0 = 1 :=
    npPercentile_const 1 1 0 (by norm_num) (by norm_num) (by norm_num)
  have hnp0 : npPercentile [(0 : ℚ)] 0 = 0 :=
    npPercentile_const 1 0 0 (by norm_num) (by norm_num) (by norm_num)
  rw [hnp1, hnp0] at h2
  norm_num at h2

/-! ### Broadcasting a single-element image against a larger shape -/

theorem srcFlat_one (idx : List ℕ) : srcFlat [1] idx = 0 := by
  unfold srcFlat
  cases idx.drop (idx.length - [1].length) with
  | nil => rfl
  | cons c rest => rfl

theorem broadcastShape_one (s : List ℕ) (h : s ≠ []) : broadcastShape [1] s = some s := by
  unfold broadcastShape
  cases hs : s.reverse with
  | nil =>
    exact absurd (by simpa using congrArg List.reverse hs) h
  | cons a t =>
    have hb : bcastRev [1] (a :: t) = some (a :: t) := by
      simp only [bcastRev]
      by_cases h1 : (1 : ℕ) = a
      · subst h1
        simp
      · simp [h1]
    rw [show [1].reverse = [1] from rfl, hb]
    show some (a :: t).reverse = some s
    rw [← hs, List.reverse_reverse]

/-- numpy broadcasting of a one-element, shape `(1,)` array against any
nonempty shape: the single value is stretched across every position. -/
theorem ewise_scalarLike (f : ℚ → ℚ → ℚ) (x : ℚ) (b : NDArray) (hne : b.shape ≠ [])
    (hb : b.data.length = shapeProd b.shape) :
    ewise f ⟨[1], [x]⟩ b = some ⟨b.shape, b.data.map fun y => f x y⟩ := by
  unfold ewise
  rw [show (NDArray.mk [1] [x]).shape = [1] from rfl, broadcastShape_one b.shape hne]
  have hdata : (List.range (shapeProd b.shape)).map
      (fun k => f (bget ⟨[1], [x]⟩ (unflatten b.shape k)) (bget b (unflatten b.shape k))) =
      b.data.map fun y => f x y := by
    apply List.ext_getElem
    · rw [List.length_map, List.length_range, List.length_map, hb]
    · intro j h1 h2
      have hj : j < shapeProd b.shape := by simpa using h1
      have hjb : j < b.data.length := by rw [hb]; exact hj
      simp only [List.getElem_map, List.getElem_range]
      unfold bget
      rw [show (NDArray.mk [1] [x]).shape = [1] from rfl, srcFlat_one,
        srcFlat_unflatten _ _ hj]
      rw [show (NDArray.mk [1] [x]).data = [x] from rfl]
      rw [List.getD_eq_getElem _ _ hjb]
      rfl
  show some (NDArray.mk b.shape ((List.range (shapeProd b.shape)).map
      fun k => f (bget ⟨[1], [x]⟩ (unflatten b.shape k)) (bget b (unflatten b.shape k)))) =
    some (NDArray.mk b.shape (b.data.map fun y => f x y))
  rw [hdata]

/-- `update` on a shape-`(1,)` image against an accumulator of a larger
(broadcast-compatible) shape succeeds silently, stretching the single
pixel across the whole `mean` array — no shape validation happens. -/
theorem update_scalar_broadcast (st : OnlineStatistics) (x : ℚ) (lg : ℚ → ℚ)
    (dims : List ℕ) (P : ℕ) (hP : shapeProd dims = P) (hdne : dims ≠ [])
    (hms : st.mean.shape = dims) (hml : st.mean.data.length = P)
    (hM2s : st.M2.shape = dims) (hM2l : st.M2.data.length = P) :
    ∃ st', st.update ⟨[1], [x]⟩ lg false = Except.ok st' ∧
      st'.n = st.n + 1 ∧ st'.mean.shape = dims ∧ st'.mean.data.length = P ∧
      ∀ j, j < P → st'.mean.data.getD j 0 =
        st.mean.data.getD j 0 + (x - st.mean.data.getD j 0) / ((st.n + 1 : ℕ) : ℚ) := by
  have hmne : st.mean.shape ≠ [] := by rw [hms]; exact hdne
  have hml' : st.mean.data.length = shapeProd st.mean.shape := by rw [hms, hP, hml]
  have h1 := ewise_scalarLike (· - ·) x st.mean hmne hml'
  set d1 : List ℚ := st.mean.data.map (fun y => x - y) with hd1
  have lend1 : d1.length = P := by rw [hd1, List.length_map, hml]
  set m1 : List ℚ := d1.map fun t => t / ((st.n + 1 : ℕ) : ℚ) with hm1
  have lenm1 : m1.length = P := by rw [hm1, List.length_map, lend1]
  have h2 := ewise_same (· + ·) st.mean ⟨st.mean.shape, m1⟩ rfl hml'
    (by show m1.length = shapeProd st.mean.shape; rw [lenm1, hms, hP])
  set a2 : List ℚ := List.zipWith (· + ·) st.mean.data m1 with ha2
  have lena2 : a2.length = P := by
    rw [ha2, List.length_zipWith, hml, lenm1, min_self]
  have h3 := ewise_scalarLike (· - ·) x ⟨st.mean.shape, a2⟩ hmne
    (by show a2.length = shapeProd st.mean.shape; rw [lena2, hms, hP])
  set a3 : List ℚ := a2.map fun y => x - y with ha3
  have lena3 : a3.length = P := by rw [ha3, List.length_map, lena2]
  have h4 := ewise_same (· * ·) ⟨st.mean.shape, d1⟩ ⟨st.mean.shape, a3⟩ rfl
    (by show d1.length = shapeProd st.mean.shape; rw [lend1, hms, hP])
    (by show a3.length = shapeProd st.mean.shape; rw [lena3, hms, hP])
  set a4 : List ℚ := List.zipWith (· * ·) d1 a3 with ha4
  have lena4 : a4.length = P := by
    rw [ha4, List.length_zipWith, lend1, lena3, min_self]
  have h5 := ewise_same (· + ·) st.M2 ⟨st.mean.shape, a4⟩ (by rw [hM2s, hms])
    (by rw [hM2l, hM2s, hP])
    (by show a4.length = shapeProd st.M2.shape; rw [lena4, hM2s, hP])
  set a5 : List ℚ := List.zipWith (· + ·) st.M2.data a4 with ha5
  refine ⟨OnlineStatistics.mk (st.n + 1) st.image_dimensions ⟨st.mean.shape, a2⟩
    ⟨st.M2.shape, a5⟩ st.q
    (List.zipWith (· + ·) st.percentileSums (st.q.map (npPercentile [x])))
    st.keys, ?_, rfl, ?_, ?_, ?_⟩
  · show OnlineStatistics.update st ⟨[1], [x]⟩ lg false = _
    unfold OnlineStatistics.update
    simp only [Bool.false_eq_true, if_false]
    rw [h1]
    dsimp only [scalarMap]
    rw [h2]
    dsimp only
    rw [h3]
    dsimp only
    rw [h4]
    dsimp only
    rw [h5]
  · show st.mean.shape = dims
    exact hms
  · show a2.length = P
    exact lena2
  · intro j hj
    show a2.getD j 0 = _
    have hjmean : j < st.mean.data.length := by omega
    have hjd1 : j < d1.length := by omega
    have hjm1 : j < m1.length := by omega
    have em1 : m1.getD j 0 = d1.getD j 0 / ((st.n + 1 : ℕ) : ℚ) := by
      rw [hm1, getD_map _ _ _ _ hjd1]
    have ed1 : d1.getD j 0 = x - st.mean.data.getD j 0 := by
      rw [hd1, getD_map2 _ _ _ 0 0 hjmean]
    rw [ha2, getD_zipWith _ _ _ _ _ hjmean hjm1, em1, ed1]

/-- Claim C3. `update` performs no shape validation.  Evaluated at the
failing inputs: an accumulator created for shape `(2, 2)` accepts a
shape-`(1,)` image of value 5 **silently** — numpy broadcasting
stretches it and the 2×2 mean becomes all 5s — and for the
broadcast-incompatible shape-`(3,)` image the `ValueError` from
`delta_mean = array - mean` is raised only **after** the percentile
sums and `n` have already been mutated (`n = 1`, percentile sum 0
becomes 1); only `mean` and `M2` are still bit-identical. -/
theorem update_shape_mismatch_behavior :
    (∃ st', OnlineStatistics.update (theInit [2, 2] 0 (fun _ => 0)) ⟨[1], [5]⟩ id false =
        Except.ok st' ∧ st'.n = 1 ∧ st'.mean.shape = [2, 2] ∧
        st'.mean.data.length = 4 ∧ ∀ j, j < 4 → st'.mean.data.getD j 0 = 5) ∧
    (∃ e, OnlineStatistics.update (theInit [2, 2] 0 (fun _ => 0)) ⟨[3], [1, 2, 3]⟩ id false =
        Except.error e ∧ e.2.n = 1 ∧
        e.2.mean = (theInit [2, 2] 0 (fun _ => 0)).mean ∧
        e.2.M2 = (theInit [2, 2] 0 (fun _ => 0)).M2 ∧
        e.2.percentileSums.getD 0 0 = 1 ∧
        (theInit [2, 2] 0 (fun _ => 0)).percentileSums.getD 0 0 = 0 ∧
        e.2.percentileSums ≠ (theInit [2, 2] 0 (fun _ => 0)).percentileSums) := by
  have hd : (0 : ℤ) ≤ 0 ∧ (0 : ℤ) ≤ 3 := by norm_num
  obtain ⟨hinit, hfields⟩ := theInit_eq [2, 2] 0 (fun _ => 0) hd
  set st0 := theInit [2, 2] 0 (fun _ => 0) with hst0
  have h100 : (10 : ℕ) ^ ((0 : ℤ).toNat + 2) = 100 := by norm_num
  have hms : st0.mean.shape = [2, 2] := by rw [hfields]; rfl
  have hml : st0.mean.data.length = 4 := by rw [hfields]; rfl
  have hM2s : st0.M2.shape = [2, 2] := by rw [hfields]; rfl
  have hM2l : st0.M2.data.length = 4 := by rw [hfields]; rfl
  have hn0 : st0.n = 0 := by rw [hfields]
  have hsums0 : st0.percentileSums = List.replicate 100 0 := by
    rw [hfields]
    show (List.range (10 ^ ((0 : ℤ).toNat + 2))).map (fun _ => (0 : ℚ)) = _
    rw [map_range_const, h100]
  have hq0 : st0.q = linspace 0 100 100 := by
    rw [hfields]
    show linspace 0 100 (10 ^ ((0 : ℤ).toNat + 2)) = _
    rw [h100]
  constructor
  · obtain ⟨st', hok, hn, hshape, hlen, hvals⟩ :=
      update_scalar_broadcast st0 5 id [2, 2] 4 rfl (by simp) hms hml hM2s hM2l
    refine ⟨st', hok, by rw [hn, hn0], hshape, hlen, ?_⟩
    intro j hj
    rw [hvals j hj, hn0]
    have hmz : st0.mean.data.getD j 0 = 0 := by
      rw [hfields]
      show ((zerosArr [2, 2]).data).getD j 0 = 0
      exact getD_replicate _ _ _ _ (by simpa using hj)
    rw [hmz]
    norm_num
  · have hnone : ewise (fun x1 x2 => x1 - x2) (⟨[3], [1, 2, 3]⟩ : NDArray) st0.mean = none := by
      rw [hfields]
      rfl
    refine ⟨("operands could not be broadcast together",
      OnlineStatistics.mk (st0.n + 1) st0.image_dimensions st0.mean st0.M2 st0.q
        (List.zipWith (· + ·) st0.percentileSums
          (st0.q.map (npPercentile ([1, 2, 3] : List ℚ))))
        st0.keys), ?_, ?_, rfl, rfl, ?_, ?_, ?_⟩
    · show OnlineStatistics.update st0 ⟨[3], [1, 2, 3]⟩ id false = _
      unfold OnlineStatistics.update
      simp only [Bool.false_eq_true, if_false]
      rw [hnone]
    · show st0.n + 1 = 1
      rw [hn0]
    · show (List.zipWith (· + ·) st0.percentileSums
        (st0.q.map (npPercentile ([1, 2, 3] : List ℚ)))).getD 0 0 = 1
      rw [hsums0, hq0]
      have hnp : npPercentile ([1, 2, 3] : List ℚ) 0 = 1 := by
        norm_num [npPercentile, List.mergeSort]
      rw [getD_zipWith _ _ _ 0 _ (by simp)
          (by rw [List.length_map, linspace_length]; norm_num),
        getD_replicate _ _ _ _ (by norm_num),
        getD_map2 _ _ _ 0 0 (by rw [linspace_length]; norm_num),
        linspace_getD_zero _ _ _ (by norm_num), hnp]
      norm_num
    · rw [hsums0]
      exact getD_replicate _ _ _ _ (by norm_num)
    · intro hcontra
      have h1 := congrArg (fun l => l.getD 0 (0 : ℚ)) hcontra
      simp only at h1
      rw [hsums0, hq0] at h1
      have hnp : npPercentile ([1, 2, 3] : List ℚ) 0 = 1 := by
        norm_num [npPercentile, List.mergeSort]
      rw [getD_zipWith _ _ _ 0 _ (by simp)
          (by rw [List.length_map, linspace_length]; norm_num),
        getD_replicate _ _ _ _ (by norm_num),
        getD_map2 _ _ _ 0 0 (by rw [linspace_length]; norm_num),
        linspace_getD_zero _ _ _ (by norm_num), hnp] at h1
      norm_num at h1

/-! ### Tile geometry: border exclusion -/

theorem tileSize_pos (z : ℕ) : 0 < tileSize z := by
  unfold tileSize
  positivity

theorem segIntersectsRect_vert_iff (X lo hi : ℚ) (r : Rect) :
    segIntersectsRect (Seg.vert X lo hi) r = true ↔
      r.minx ≤ X ∧ X ≤ r.maxx ∧ lo ≤ r.maxy ∧ r.miny ≤ hi := by
  simp [segIntersectsRect, and_assoc]

theorem segIntersectsRect_horiz_iff (Y lo hi : ℚ) (r : Rect) :
    segIntersectsRect (Seg.horiz Y lo hi) r = true ↔
      r.miny ≤ Y ∧ Y ≤ r.maxy ∧ lo ≤ r.maxx ∧ r.minx ≤ hi := by
  simp [segIntersectsRect, and_assoc]

theorem segSeg_vert_vert_iff (x1 l1 h1 x2 l2 h2 : ℚ) :
    segIntersectsSeg (Seg.vert x1 l1 h1) (Seg.vert x2 l2 h2) = true ↔
      x1 = x2 ∧ l1 ≤ h2 ∧ l2 ≤ h1 := by
  simp [segIntersectsSeg, and_assoc]

theorem segSeg_vert_horiz_iff (x1 l1 h1 y2 l2 h2 : ℚ) :
    segIntersectsSeg (Seg.vert x1 l1 h1) (Seg.horiz y2 l2 h2) = true ↔
      l2 ≤ x1 ∧ x1 ≤ h2 ∧ l1 ≤ y2 ∧ y2 ≤ h1 := by
  simp [segIntersectsSeg, and_assoc]

theorem segSeg_horiz_vert_iff (y1 l1 h1 x2 l2 h2 : ℚ) :
    segIntersectsSeg (Seg.horiz y1 l1 h1) (Seg.vert x2 l2 h2) = true ↔
      l1 ≤ x2 ∧ x2 ≤ h1 ∧ l2 ≤ y1 ∧ y1 ≤ h2 := by
  simp [segIntersectsSeg, and_assoc]

theorem segSeg_horiz_horiz_iff (y1 l1 h1 y2 l2 h2 : ℚ) :
    segIntersectsSeg (Seg.horiz y1 l1 h1) (Seg.horiz y2 l2 h2) = true ↔
      y1 = y2 ∧ l1 ≤ h2 ∧ l2 ≤ h1 := by
  simp [segIntersectsSeg, and_assoc]

theorem intersection_filter_iff (x y z : ℕ) (g : Seg) :
    intersection_filter x y z g = true ↔
      segIntersectsRect g (tileRect x y z) = true ∧
      (x ≠ 0 → segIntersectsSeg g (leftBorder x y z) = false) ∧
      (y ≠ 0 → segIntersectsSeg g (topBorder x y z) = false) := by
  unfold intersection_filter
  split_ifs with hx hy <;>
    simp_all [Bool.and_eq_true, Bool.not_eq_true', and_assoc]

theorem tileRect_eq (x y z : ℕ) :
    tileRect x y z = ⟨(x : ℚ) * tileSize z, (x : ℚ) * tileSize z + tileSize z,
      -((y : ℚ) * tileSize z) - tileSize z, -((y : ℚ) * tileSize z)⟩ := rfl

theorem leftBorder_eq (x y z : ℕ) :
    leftBorder x y z = Seg.vert ((x : ℚ) * tileSize z)
      (-((y : ℚ) * tileSize z) - tileSize z) (-((y : ℚ) * tileSize z)) := rfl

theorem topBorder_eq (x y z : ℕ) :
    topBorder x y z = Seg.horiz (-((y : ℚ) * tileSize z) - tileSize z)
      ((x : ℚ) * tileSize z) ((x : ℚ) * tileSize z + tileSize z) := rfl

/-- Claim C2, amended. For an outline lying exactly on a shared tile
edge (not touching the corner at the excluded end): on the *vertical*
border between columns `x` and `x + 1` the outline is returned by
exactly one of the two tiles — the left one — for **every** `x`,
including `x = 0`: the `x != 0` guard only spares the unshared outer
boundary at map coordinate 0, never a shared edge, because the
excluding tile of a shared vertical edge is the right tile at column
`x + 1 ≥ 1`.  On the *horizontal* border between rows `y` and `y + 1`
the outline is returned by the lower tile always, and by the upper
tile exactly when `y = 0` — the row exception of the claim is real,
the column exception is not. -/
theorem tile_border_exclusion_amended (x y z : ℕ) :
    (∀ a b : ℚ,
      -(y : ℚ) * tileSize z - tileSize z < a → a ≤ b → b ≤ -(y : ℚ) * tileSize z →
      intersection_filter x y z (Seg.vert (((x : ℚ) + 1) * tileSize z) a b) = true ∧
      intersection_filter (x + 1) y z (Seg.vert (((x : ℚ) + 1) * tileSize z) a b) = false) ∧
    (∀ c d : ℚ,
      (x : ℚ) * tileSize z < c → c ≤ d → d ≤ (x : ℚ) * tileSize z + tileSize z →
      intersection_filter x (y + 1) z
        (Seg.horiz (-((y : ℚ) + 1) * tileSize z) c d) = true ∧
      (intersection_filter x y z
        (Seg.horiz (-((y : ℚ) + 1) * tileSize z) c d) = true ↔ y = 0)) := by
  have hs := tileSize_pos z
  set s := tileSize z with hsdef
  constructor
  · intro a b hlow hab hhigh
    constructor
    · rw [intersection_filter_iff, tileRect_eq, leftBorder_eq, topBorder_eq]
      refine ⟨?_, ?_, ?_⟩
      · rw [segIntersectsRect_vert_iff]
        refine ⟨?_, ?_, ?_, ?_⟩ <;> dsimp only <;> nlinarith
      · intro hx
        rw [Bool.eq_false_iff]
        intro hcon
        rw [segSeg_vert_vert_iff] at hcon
        obtain ⟨h1, h2, h3⟩ := hcon
        nlinarith
      · intro hy
        rw [Bool.eq_false_iff]
        intro hcon
        rw [segSeg_vert_horiz_iff] at hcon
        obtain ⟨h1, h2, h3, h4⟩ := hcon
        nlinarith
    · rw [Bool.eq_false_iff]
      intro hcon
      rw [intersection_filter_iff] at hcon
      obtain ⟨hrect, hleft, htop⟩ := hcon
      have htrue : segIntersectsSeg (Seg.vert (((x : ℚ) + 1) * s) a b)
          (leftBorder (x + 1) y z) = true := by
        rw [leftBorder_eq, segSeg_vert_vert_iff]
        refine ⟨?_, ?_, ?_⟩ <;> push_cast <;> nlinarith
      rw [hleft (Nat.succ_ne_zero x)] at htrue
      exact Bool.false_ne_true htrue
  · intro c d hc hcd hd
    constructor
    · rw [intersection_filter_iff, tileRect_eq, leftBorder_eq, topBorder_eq]
      refine ⟨?_, ?_, ?_⟩
      · rw [segIntersectsRect_horiz_iff]
        refine ⟨?_, ?_, ?_, ?_⟩ <;> dsimp only <;> push_cast <;> nlinarith
      · intro hx
        rw [Bool.eq_false_iff]
        intro hcon
        rw [segSeg_horiz_vert_iff] at hcon
        obtain ⟨h1, h2, h3, h4⟩ := hcon
        nlinarith
      · intro hy
        rw [Bool.eq_false_iff]
        intro hcon
        rw [segSeg_horiz_horiz_iff] at hcon
        obtain ⟨h1, h2, h3⟩ := hcon
        push_cast at h1
        nlinarith

    · constructor
      · intro hfilt
        by_contra hy0
        rw [intersection_filter_iff] at hfilt
        have htopf := hfilt.2.2 hy0
        have htrue : segIntersectsSeg (Seg.horiz (-((y : ℚ) + 1) * s) c d)
            (topBorder x y z) = true := by
          rw [topBorder_eq, segSeg_horiz_horiz_iff]
          refine ⟨by push_cast; ring, ?_, ?_⟩ <;> nlinarith
        rw [htopf] at htrue
        exact Bool.false_ne_true htrue
      · intro hy0
        subst hy0
        rw [intersection_filter_iff, tileRect_eq, leftBorder_eq]
        refine ⟨?_, ?_, ?_⟩
        · rw [segIntersectsRect_horiz_iff]
          refine ⟨?_, ?_, ?_, ?_⟩ <;> dsimp only <;> push_cast <;> nlinarith
        · intro hx
          rw [Bool.eq_false_iff]
          intro hcon
          rw [segSeg_horiz_vert_iff] at hcon
          obtain ⟨h1, h2, h3, h4⟩ := hcon
          push_cast at h1
          nlinarith
        · intro h0
          exact absurd rfl h0

/-- Claim C2, counterexample. The claimed column-0 exception does not
exist.  At zoom 6 (tile size 256) the tiles `(0, 1)` and `(1, 1)` share
the vertical edge `x = 256`; the outline segment from `(256, -400)` to
`(256, -300)` lies exactly on that edge and intersects both tile
rectangles.  The claim says that because one of the two tiles is at
column 0 the exclusion is skipped and both tiles return the outline;
the code instead excludes it from tile `(1, 1)` (whose left border is
the shared edge and whose column is nonzero), so it appears in exactly
one tile — the left one. -/
theorem tile_border_exclusion_counterexample :
    intersection_filter 0 1 6 (Seg.vert 256 (-400) (-300)) = true ∧
    segIntersectsRect (Seg.vert 256 (-400) (-300)) (tileRect 1 1 6) = true ∧
    intersection_filter 1 1 6 (Seg.vert 256 (-400) (-300)) = false ∧
    ¬(intersection_filter 0 1 6 (Seg.vert 256 (-400) (-300)) = true ∧
      intersection_filter 1 1 6 (Seg.vert 256 (-400) (-300)) = true) := by
  have hts : tileSize 6 = 256 := by
    unfold tileSize
    norm_num
  refine ⟨?_, ?_, ?_, ?_⟩
  · rw [intersection_filter_iff, tileRect_eq, leftBorder_eq, topBorder_eq, hts]
    refine ⟨?_, ?_, ?_⟩
    · rw [segIntersectsRect_vert_iff]
      norm_num
    · intro h
      exact absurd rfl h
    · intro h
      rw [Bool.eq_false_iff]
      intro hcon
      rw [segSeg_vert_horiz_iff] at hcon
      norm_num at hcon
  · rw [tileRect_eq, hts, segIntersectsRect_vert_iff]
    norm_num
  · rw [Bool.eq_false_iff]
    intro hcon
    rw [intersection_filter_iff] at hcon
    have hleft := hcon.2.1 (by norm_num)
    rw [leftBorder_eq, hts] at hleft
    push_cast at hleft
    have htrue : segIntersectsSeg (Seg.vert 256 (-400) (-300))
        (Seg.vert ((1 : ℚ) * 256) (-((1 : ℚ) * 256) - 256) (-((1 : ℚ) * 256))) = true := by
      rw [segSeg_vert_vert_iff]
      norm_num
    rw [hleft] at htrue
    exact Bool.false_ne_true htrue
  · rintro ⟨h1, h2⟩
    rw [intersection_filter_iff] at h2
    have hleft := h2.2.1 (by norm_num)
    rw [leftBorder_eq, hts] at hleft
    push_cast at hleft
    have htrue : segIntersectsSeg (Seg.vert 256 (-400) (-300))
        (Seg.vert ((1 : ℚ) * 256) (-((1 : ℚ) * 256) - 256) (-((1 : ℚ) * 256))) = true := by
      rw [segSeg_vert_vert_iff]
      norm_num
    rw [hleft] at htrue
    exact Bool.false_ne_true htrue

/-- Witness for `tile_border_exclusion_amended`: zoom 6, the vertical
edge between tiles `(0, 1)` and `(1, 1)` with the outline from
`(256, -400)` to `(256, -300)`, and the horizontal edge between tiles
`(0, 1)` and `(0, 2)` with the outline from `(100, -512)` to
`(200, -512)`. -/
theorem tile_border_exclusion_amended_witness :
    (intersection_filter 0 1 6 (Seg.vert (((0 : ℚ) + 1) * tileSize 6) (-400) (-300)) = true ∧
      intersection_filter 1 1 6 (Seg.vert (((0 : ℚ) + 1) * tileSize 6) (-400) (-300)) = false) ∧
    (intersection_filter 0 2 6 (Seg.horiz (-((1 : ℚ) + 1) * tileSize 6) 100 200) = true ∧
      (intersection_filter 0 1 6 (Seg.horiz (-((1 : ℚ) + 1) * tileSize 6) 100 200) = true ↔
        (1 : ℕ) = 0)) := by
  have hts : tileSize 6 = 256 := by
    unfold tileSize
    norm_num
  constructor
  · exact (tile_border_exclusion_amended 0 1 6).1 (-400) (-300)
      (by rw [hts]; norm_num) (by norm_num) (by rw [hts]; norm_num)
  · exact (tile_border_exclusion_amended 0 1 6).2 100 200
      (by rw [hts]; norm_num) (by norm_num) (by rw [hts]; norm_num)

/-! ### Zoom-threshold estimator -/

theorem collectAverages_ok (draws : ℕ → List (ℕ × ℕ)) (query : List (ℚ × ℚ) → Option ℕ)
    (zs : List ℕ) (f : ℕ → ℕ) (h : ∀ z ∈ zs, levelAverage draws query z = some (f z)) :
    collectAverages draws query zs = Except.ok (zs.map fun z => (z, f z)) := by
  induction zs with
  | nil => rfl
  | cons z rest ih =>
    unfold collectAverages
    rw [h z (List.mem_cons_self z rest),
      ih fun w hw => h w (List.mem_cons_of_mem z hw)]
    rfl

theorem collectAverages_error (draws : ℕ → List (ℕ × ℕ))
    (query : List (ℚ × ℚ) → Option ℕ) (zs : List ℕ)
    (h : ∃ z ∈ zs, levelAverage draws query z = none) :
    collectAverages draws query zs =
      Except.error "ZeroDivisionError: float division by zero" := by
  induction zs with
  | nil =>
    obtain ⟨z, hz, _⟩ := h
    exact absurd hz (List.not_mem_nil z)
  | cons z rest ih =>
    by_cases hz : levelAverage draws query z = none
    · unfold collectAverages
      rw [hz]
    · obtain ⟨w, hw, hnone⟩ := h
      have hwr : w ∈ rest := by
        rcases List.mem_cons.mp hw with hh | hh
        · subst hh
          exact absurd hnone hz
        · exact hh
      obtain ⟨a, ha⟩ := Option.ne_none_iff_exists'.mp hz
      unfold collectAverages
      rw [ha, ih ⟨w, hwr, hnone⟩]

/-- Claim C9, amended. A single sampled tile with no intersecting
outline (a `NULL` scalar) is skipped, but if **all** samples of some
level `z ≤ maxzoom_level` come back `NULL`, `calculate_min_poly_zoom`
raises `ZeroDivisionError` at that level — it does not complete, even
when other levels have data. -/
theorem empty_level_raises (m : ℕ) (draws : ℕ → List (ℕ × ℕ))
    (query : List (ℚ × ℚ) → Option ℕ) (limit : ℕ)
    (h : ∃ z, z ≤ m ∧ levelAverage draws query z = none) :
    calculate_min_poly_zoom m draws query limit =
      Except.error "ZeroDivisionError: float division by zero" := by
  unfold calculate_min_poly_zoom
  obtain ⟨z, hz, hnone⟩ := h
  rw [collectAverages_error draws query _
    ⟨z, by rw [List.mem_reverse, List.mem_range]; omega, hnone⟩]

/-- Witness for `empty_level_raises`: two levels, the single sampled
tile at zoom 1 finds no outline (`NULL`), zoom 0 would have data. -/
theorem empty_level_raises_witness :
    calculate_min_poly_zoom 1 (fun _ => [(0, 0)])
        (fun b => if (b.getD 0 (0, 0)).1 < 10000 then none else some 5) 3000 =
      Except.error "ZeroDivisionError: float division by zero" :=
  empty_level_raises 1 (fun _ => [(0, 0)])
    (fun b => if (b.getD 0 (0, 0)).1 < 10000 then none else some 5) 3000
    ⟨1, le_refl 1, by
      norm_num [levelAverage, estimatorTilesize, estimatorTileBoundary, List.filterMap_cons]⟩

/-- Claim C9, counterexample. Claim C9 says the function still completes
when one level's samples all come back empty.  Concrete run with
`maxzoom_level = 1`, one draw `(0, 0)` per level, and a database in
which the zoom-1 sample boundary intersects nothing (`NULL`) while the
zoom-0 boundary has 5 polygon points: the level average at zoom 0
exists (`some 5`, which also qualifies against the limit 3000), yet the
call raises `ZeroDivisionError` instead of returning zoom 0. -/
theorem empty_level_raises_counterexample :
    calculate_min_poly_zoom 1 (fun _ => [(0, 0)])
        (fun b => if (b.getD 0 (0, 0)).1 < 10000 then none else some 5) 3000 =
      Except.error "ZeroDivisionError: float division by zero" ∧
    levelAverage (fun _ => [(0, 0)])
        (fun b => if (b.getD 0 (0, 0)).1 < 10000 then none else some 5) 0 = some 5 := by
  constructor
  · unfold calculate_min_poly_zoom
    rw [collectAverages_error _ _ _
      ⟨1, by rw [List.mem_reverse, List.mem_range]; omega, by
        norm_num [levelAverage, estimatorTilesize, estimatorTileBoundary,
          List.filterMap_cons]⟩]
  · norm_num [levelAverage, estimatorTilesize, estimatorTileBoundary, List.filterMap_cons]

/-- Claim C10. When every zoom level's truncated sample average exceeds
`n_points_per_tile_limit`, no level qualifies and
`min([z for z, n in ... if n <= limit])` is the minimum of an empty
list: the call raises `ValueError` instead of returning a zoom level. -/
theorem no_qualifying_level_raises (m : ℕ) (draws : ℕ → List (ℕ × ℕ))
    (query : List (ℚ × ℚ) → Option ℕ) (limit : ℕ) (f : ℕ → ℕ)
    (hall : ∀ z, z ≤ m → levelAverage draws query z = some (f z))
    (hover : ∀ z, z ≤ m → limit < f z) :
    calculate_min_poly_zoom m draws query limit =
      Except.error "ValueError: min() arg is an empty sequence" := by
  unfold calculate_min_poly_zoom
  rw [collectAverages_ok draws query _ f fun z hz => hall z (by
    rw [List.mem_reverse, List.mem_range] at hz
    omega)]
  dsimp only
  have hfilt : (((List.range (m + 1)).reverse.map fun z => (z, f z)).filter
      fun p => p.2 ≤ limit) = [] := by
    rw [List.filter_eq_nil_iff]
    intro p hp
    rw [List.mem_map] at hp
    obtain ⟨w, hw, rfl⟩ := hp
    rw [List.mem_reverse, List.mem_range] at hw
    have := hover w (by omega)
    simp only [decide_eq_true_eq]
    omega
  rw [hfilt]
  rfl

/-- Witness for `no_qualifying_level_raises`: a single level whose
sample average 5000 exceeds the limit 3000. -/
theorem no_qualifying_level_raises_witness :
    calculate_min_poly_zoom 0 (fun _ => [(0, 0)]) (fun _ => some 5000) 3000 =
      Except.error "ValueError: min() arg is an empty sequence" :=
  no_qualifying_level_raises 0 (fun _ => [(0, 0)]) (fun _ => some 5000) 3000
    (fun _ => 5000) (by decide) (by decide)

/-- Claim C5, amended. When every level `z ≤ maxzoom_level` has at least
one non-null sample (average `f z`, already truncated by
`int(float(sum)/len)`) and some level passes the comparison
`f z ≤ n_points_per_tile_limit`, `calculate_min_poly_zoom` returns the
**minimum** qualifying zoom level.  Qualification uses the truncated
integer average, not the exact average (see
`min_poly_zoom_floor_counterexample`). -/
theorem min_poly_zoom_amended (m : ℕ) (draws : ℕ → List (ℕ × ℕ))
    (query : List (ℚ × ℚ) → Option ℕ) (limit : ℕ) (f : ℕ → ℕ)
    (hall : ∀ z, z ≤ m → levelAverage draws query z = some (f z))
    (z₀ : ℕ) (hz0 : z₀ ≤ m) (hq : f z₀ ≤ limit)
    (hmin : ∀ z, z ≤ m → f z ≤ limit → z₀ ≤ z) :
    calculate_min_poly_zoom m draws query limit = Except.ok z₀ := by
  unfold calculate_min_poly_zoom
  rw [collectAverages_ok draws query _ f fun z hz => hall z (by
    rw [List.mem_reverse, List.mem_range] at hz
    omega)]
  dsimp only
  have hmem : z₀ ∈ (((List.range (m + 1)).reverse.map fun z => (z, f z)).filter
      fun p => p.2 ≤ limit).map Prod.fst := by
    rw [List.mem_map]
    refine ⟨(z₀, f z₀), ?_, rfl⟩
    rw [List.mem_filter]
    constructor
    · rw [List.mem_map]
      exact ⟨z₀, by rw [List.mem_reverse, List.mem_range]; omega, rfl⟩
    · simpa using hq
  have hle : ∀ b ∈ (((List.range (m + 1)).reverse.map fun z => (z, f z)).filter
      fun p => p.2 ≤ limit).map Prod.fst, z₀ ≤ b := by
    intro b hb
    rw [List.mem_map] at hb
    obtain ⟨p, hp, rfl⟩ := hb
    rw [List.mem_filter] at hp
    obtain ⟨hp1, hp2⟩ := hp
    rw [List.mem_map] at hp1
    obtain ⟨w, hw, rfl⟩ := hp1
    rw [List.mem_reverse, List.mem_range] at hw
    exact hmin w (by omega) (by simpa using hp2)
  rw [List.min?_eq_some_iff'.mpr ⟨hmem, hle⟩]

/-- Witness for `min_poly_zoom_amended`: two levels, every sampled tile
reports 10 points, limit 3000 — the minimum qualifying level is 0. -/
theorem min_poly_zoom_amended_witness :
    calculate_min_poly_zoom 1 (fun _ => [(0, 0)]) (fun _ => some 10) 3000 =
      Except.ok 0 :=
  min_poly_zoom_amended 1 (fun _ => [(0, 0)]) (fun _ => some 10) 3000 (fun _ => 10)
    (by decide) 0 (by decide) (by decide) (by decide)

/-- Claim C5, counterexample. The comparison against the limit uses the
truncated average `int(float(sum)/len)`, not the exact average.
Concrete run: `maxzoom_level = 0`, two sampled tiles whose vertex-count
sums are 3 and 4, limit 3.  The exact average `3.5` exceeds the limit,
so by the claim no level qualifies (the call should fail, cf. C10);
the code truncates `3.5` to `3 ≤ 3` and returns zoom 0. -/
theorem min_poly_zoom_floor_counterexample :
    ([(0, 0), (1, 0)] : List (ℕ × ℕ)).filterMap (fun p =>
        (fun b => if (b.getD 0 (0, 0)).1 ≤ 20000 then some 3 else some 4)
          (estimatorTileBoundary (estimatorTilesize 0) p.1 p.2)) = [3, 4] ∧
    ¬(((3 : ℚ) + 4) / 2 ≤ 3) ∧
    calculate_min_poly_zoom 0 (fun _ => [(0, 0), (1, 0)])
        (fun b => if (b.getD 0 (0, 0)).1 ≤ 20000 then some 3 else some 4) 3 =
      Except.ok 0 := by
  refine ⟨?_, by norm_num, ?_⟩
  · norm_num [estimatorTilesize, estimatorTileBoundary, List.filterMap_cons]
  · unfold calculate_min_poly_zoom
    rw [collectAverages_ok _ _ _ (fun _ => 3) ?_]
    · rfl
    · intro z hz
      rw [List.mem_reverse, List.mem_range] at hz
      have hz0 : z = 0 := by omega
      subst hz0
      norm_num [levelAverage, estimatorTilesize, estimatorTileBoundary,
        List.filterMap_cons]

/-- Claim C6. Both the tile-query geometry (`intersection_filter`, via
`tileSize`) and the estimator's sampled tile boundary
(`calculate_min_poly_zoom`, via `estimatorTilesize`) compute the tile
extent from the **hardcoded** constant `max_zoom = 6`
(`256 * 2 ** (6 - z)`; the source comment reads `TODO: max_zoom should
be taken from the layer`), so the claimed formula
`size = 256 * 2^(maxZoom - z)` holds only when the configured maximum
zoom is 6.  Evaluated at the failing input `maxzoom_level = 0`,
`z = 0`, sampled tile `(0, 0)`: the claim predicts a boundary of
extent `256 * 2^(0-0) = 256`, but the estimator queries the boundary
of extent `16384`; a database keyed to the 16384-extent boundary is
hit, one keyed to the claimed 256-extent boundary is never queried and
the run dies with `ZeroDivisionError`. -/
theorem tile_size_hardcoded_max_zoom :
    (∀ z, estimatorTilesize z = specTileSize 6 z ∧ tileSize z = specTileSize 6 z) ∧
    (estimatorTilesize 0 = 16384 ∧ specTileSize 0 0 = 256 ∧
      estimatorTilesize 0 ≠ specTileSize 0 0) ∧
    calculate_min_poly_zoom 0 (fun _ => [(0, 0)])
        (fun b => if (b.getD 0 (0, 0)).1 = 16384 then some 1 else none) 3000 =
      Except.ok 0 ∧
    calculate_min_poly_zoom 0 (fun _ => [(0, 0)])
        (fun b => if (b.getD 0 (0, 0)).1 = 256 then some 1 else none) 3000 =
      Except.error "ZeroDivisionError: float division by zero" := by
  refine ⟨?_, ⟨?_, ?_, ?_⟩, ?_, ?_⟩
  · intro z
    exact ⟨rfl, rfl⟩
  · norm_num [estimatorTilesize]
  · norm_num [specTileSize]
  · norm_num [estimatorTilesize, specTileSize]
  · unfold calculate_min_poly_zoom
    rw [collectAverages_ok _ _ _ (fun _ => 1) ?_]
    · rfl
    · intro z hz
      rw [List.mem_reverse, List.mem_range] at hz
      have hz0 : z = 0 := by omega
      subst hz0
      norm_num [levelAverage, estimatorTilesize, estimatorTileBoundary,
        List.filterMap_cons]
  · unfold calculate_min_poly_zoom
    rw [collectAverages_error _ _ _
      ⟨0, by rw [List.mem_reverse, List.mem_range]; omega, by
        norm_num [levelAverage, estimatorTilesize, estimatorTileBoundary,
          List.filterMap_cons]⟩]
